import Mathlib

/-!
Verification of the memory-management simulator core
(`src/memory_simulator.py`, together with the state export/import glue in
`src/main.py` and the compaction operation exercised by the test suites).

The Python classes are embedded shallowly:

* `MemoryBlock` mirrors the Python class of the same name.  Python block
  objects carry a derived `end` field (`end = start + size - 1`) which the
  code keeps in sync with `start`/`size` at every mutation; here it is the
  derived function `MemoryBlock.endAddr`.  The extra `ident` field models
  Python object identity: the manager's `allocated_processes` dict stores
  *references* to block objects living inside `memory_map`, which we encode
  as the `ident` of the referenced block.  Fresh blocks receive fresh
  idents from the manager's `next_ident` counter.
* `Process` keeps the two fields the allocator reads (`pid`, `size`).  The
  scheduling attributes (`arrival_time`, `duration`, `priority`, ...) are
  opaque to the allocator and are omitted.
* Python integers are unbounded, so sizes and addresses are `Int`.
* `fragmentation_history` snapshots drop the wall-clock `time` field and
  record the `external` percentage as an exact rational where Python uses
  floating point; no claim depends on the float rounding.
* The `free_list` attribute created in `__init__` is never read or written
  again anywhere in the repository and is omitted.
-/

structure MemoryBlock where
  start : Int
  size : Int
  pid : String
  ident : Nat
deriving Repr, DecidableEq

def MemoryBlock.endAddr (b : MemoryBlock) : Int := b.start + b.size - 1

structure Process where
  pid : String
  size : Int
deriving Repr, DecidableEq

structure FragSnapshot where
  external : ℚ
  internal : Int
  total_free : Int
  free_blocks : Nat
deriving Repr, DecidableEq

structure MemoryManager where
  total_memory : Int
  available_memory : Int
  memory_map : List MemoryBlock
  allocated_processes : List (String × Nat)
  fragmentation_history : List FragSnapshot
  allocation_count : Nat
  next_fit_start : Nat
  next_ident : Nat
deriving Repr, DecidableEq

/-- Sum of the sizes of all segments of a ledger. -/
def sumSizes (l : List MemoryBlock) : Int := (l.map MemoryBlock.size).sum

/-- Sum of the sizes of the non-FREE (owned) segments of a ledger. -/
def ownedSum (l : List MemoryBlock) : Int :=
  ((l.filter (fun b => b.pid ≠ "FREE")).map MemoryBlock.size).sum

/-- Python dict assignment `d[k] = v`: replace the value of an existing key
in place, otherwise append the new binding. -/
def insertAssoc {β : Type} : List (String × β) → String → β → List (String × β)
  | [], k, v => [(k, v)]
  | (k', v') :: t, k, v =>
    if k' = k then (k, v) :: t else (k', v') :: insertAssoc t k v

/-- Python dict lookup `d[k]` (as an option). -/
def lookupAssoc {β : Type} : List (String × β) → String → Option β
  | [], _ => none
  | (k', v') :: t, k => if k' = k then some v' else lookupAssoc t k

/-- Python `del d[k]`: drop the binding of `k`. -/
def eraseAssoc {β : Type} : List (String × β) → String → List (String × β)
  | [], _ => []
  | (k', v') :: t, k => if k' = k then t else (k', v') :: eraseAssoc t k

/-- Dereference a Python block object: find the block of `memory_map`
carrying the given identity. -/
def findIdent (l : List MemoryBlock) (i : Nat) : Option MemoryBlock :=
  l.find? (fun b => b.ident = i)

/-- Replace the element at position `i` of a list by a (possibly longer)
run of elements.  `list.set i b` followed by `list.insert(i+1, c)` in the
Python source is `replaceAt l i [b, c]` here. -/
def replaceAt {α : Type} : List α → Nat → List α → List α
  | [], _, _ => []
  | _ :: t, 0, r => r ++ t
  | a :: t, n + 1, r => a :: replaceAt t n r

/-- `_get_process_by_pid` (`memory_simulator.py:213-216`): the helper does
not consult any process table; it fabricates a `Process` whose `size` is
the size of the block currently referenced by `allocated_processes[pid]`. -/
def getProcessByPid (m : MemoryManager) (pid : String) : Option Process :=
  (lookupAssoc m.allocated_processes pid).bind fun i =>
    (findIdent m.memory_map i).map fun b => { pid := pid, size := b.size }

/-- Largest element of a list of integers, `0` for the empty list
(Python `max(..., default=0)`). -/
def maxSizeD : List Int → Int
  | [] => 0
  | h :: t => t.foldl max h

/-- The internal-fragmentation sum of `_update_fragmentation`
(`memory_simulator.py:199-203`): for each allocation-index entry the
"process" produced by `_get_process_by_pid` has the referenced block's own
size, and the summand is kept only when `block.size > process.size`. -/
def internalFrag (m : MemoryManager) : Int :=
  (m.allocated_processes.map fun kb =>
    match findIdent m.memory_map kb.2 with
    | some b =>
      match getProcessByPid m kb.1 with
      | some p => if b.size > p.size then b.size - p.size else 0
      | none => 0
    | none => 0).sum

/-- One fragmentation snapshot as computed by `_update_fragmentation`. -/
def computeSnapshot (m : MemoryManager) : FragSnapshot :=
  let freeBlocks := m.memory_map.filter (fun b => b.pid = "FREE")
  let totalFree : Int := (freeBlocks.map MemoryBlock.size).sum
  let maxFree : Int := maxSizeD (freeBlocks.map MemoryBlock.size)
  let ext : ℚ :=
    if totalFree = 0 then 0
    else if totalFree > 0 then (1 - (maxFree : ℚ) / (totalFree : ℚ)) * 100
    else 0
  { external := ext
    internal := internalFrag m
    total_free := totalFree
    free_blocks := freeBlocks.length }

/-- `_update_fragmentation`: append a snapshot to the history. -/
def updateFrag (m : MemoryManager) : MemoryManager :=
  { m with fragmentation_history := m.fragmentation_history ++ [computeSnapshot m] }

/-- `MemoryManager.__init__`: one FREE segment spanning the whole space,
then an initial fragmentation snapshot. -/
def initManager (total : Int) : MemoryManager :=
  updateFrag
    { total_memory := total
      available_memory := total
      memory_map := [⟨0, total, "FREE", 0⟩]
      allocated_processes := []
      fragmentation_history := []
      allocation_count := 0
      next_fit_start := 0
      next_ident := 1 }

/-- `_allocate_block` (`memory_simulator.py:132-155`): commit the block at
`index` to the process — wholly on exact fit, otherwise shrink it to
`process.size` and insert the FREE remainder right after it — then record
the allocation-index entry, decrease `available_memory`, bump the counter
and append a fragmentation snapshot.  Returns `(manager, success, address)`. -/
def allocateBlock (m : MemoryManager) (index : Nat) (p : Process) :
    MemoryManager × Bool × Int :=
  match m.memory_map[index]? with
  | none => (m, false, -1)
  | some b =>
    if b.size = p.size then
      let owned : MemoryBlock := { b with pid := p.pid }
      let m' := { m with
        memory_map := replaceAt m.memory_map index [owned]
        allocated_processes := insertAssoc m.allocated_processes p.pid b.ident
        available_memory := m.available_memory - p.size
        allocation_count := m.allocation_count + 1 }
      (updateFrag m', true, b.start)
    else
      let owned : MemoryBlock :=
        { start := b.start, size := p.size, pid := p.pid, ident := b.ident }
      let freeBlock : MemoryBlock :=
        { start := b.start + p.size, size := b.size - p.size, pid := "FREE",
          ident := m.next_ident }
      let m' := { m with
        memory_map := replaceAt m.memory_map index [owned, freeBlock]
        allocated_processes := insertAssoc m.allocated_processes p.pid b.ident
        available_memory := m.available_memory - p.size
        allocation_count := m.allocation_count + 1
        next_ident := m.next_ident + 1 }
      (updateFrag m', true, b.start)

/-- Scan for the first segment (in address order) that is FREE and at
least `sz` large; used by `first_fit` and, with the rounded-up size, by
`buddy_system`. -/
def findFirstFit (sz : Int) : List MemoryBlock → Option Nat
  | [] => none
  | b :: t =>
    if b.pid = "FREE" ∧ sz ≤ b.size then some 0
    else (findFirstFit sz t).map (· + 1)

/-- `first_fit` (`memory_simulator.py:50-55`). -/
def firstFit (m : MemoryManager) (p : Process) : MemoryManager × Bool × Int :=
  match findFirstFit p.size m.memory_map with
  | some i => allocateBlock m i p
  | none => (m, false, -1)

/-- The fold of `best_fit` (`memory_simulator.py:57-73`): walk the ledger
keeping the first index whose waste is strictly smaller than every waste
seen so far (`min_waste` starts at infinity, modelled by `none`). -/
def bestFitAux (sz : Int) : List MemoryBlock → Nat → Option (Nat × Int) → Option (Nat × Int)
  | [], _, acc => acc
  | b :: t, i, acc =>
    if b.pid = "FREE" ∧ sz ≤ b.size then
      let waste := b.size - sz
      match acc with
      | none => bestFitAux sz t (i + 1) (some (i, waste))
      | some (bi, bw) =>
        if waste < bw then bestFitAux sz t (i + 1) (some (i, waste))
        else bestFitAux sz t (i + 1) (some (bi, bw))
    else bestFitAux sz t (i + 1) acc

/-- `best_fit` (`memory_simulator.py:57-73`). -/
def bestFit (m : MemoryManager) (p : Process) : MemoryManager × Bool × Int :=
  match bestFitAux p.size m.memory_map 0 none with
  | some (i, _) => allocateBlock m i p
  | none => (m, false, -1)

/-- The fold of `worst_fit` (`memory_simulator.py:75-90`): keep the first
index whose size strictly exceeds every size seen so far (`max_size`
starts at `-1`). -/
def worstFitAux (sz : Int) : List MemoryBlock → Nat → Option (Nat × Int) → Option (Nat × Int)
  | [], _, acc => acc
  | b :: t, i, acc =>
    if b.pid = "FREE" ∧ sz ≤ b.size then
      let cur : Int := match acc with | none => -1 | some (_, ms) => ms
      if b.size > cur then worstFitAux sz t (i + 1) (some (i, b.size))
      else worstFitAux sz t (i + 1) acc
    else worstFitAux sz t (i + 1) acc

/-- `worst_fit` (`memory_simulator.py:75-90`). -/
def worstFit (m : MemoryManager) (p : Process) : MemoryManager × Bool × Int :=
  match worstFitAux p.size m.memory_map 0 none with
  | some (i, _) => allocateBlock m i p
  | none => (m, false, -1)

/-- The circular scan of `next_fit` (`memory_simulator.py:92-101`):
`fuel` counts the remaining loop iterations (`n` at entry), `i` the
current iteration; the position examined is `(start + i) % n`. -/
def nextFitAux (map : List MemoryBlock) (sz : Int) (start n : Nat) :
    Nat → Nat → Option Nat
  | _, 0 => none
  | i, fuel + 1 =>
    let idx := (start + i) % n
    match map[idx]? with
    | some b =>
      if b.pid = "FREE" ∧ sz ≤ b.size then some idx
      else nextFitAux map sz start n (i + 1) fuel
    | none => nextFitAux map sz start n (i + 1) fuel

/-- Index selected by the `next_fit` scan, if any. -/
def nextFitFind (map : List MemoryBlock) (sz : Int) (start : Nat) : Option Nat :=
  nextFitAux map sz start map.length 0 map.length

/-- `next_fit` (`memory_simulator.py:92-101`): the cursor is advanced to
`(idx + 1) % n` — with `n` the ledger length at selection time — before
`_allocate_block` runs (which may insert a block and lengthen the ledger). -/
def nextFit (m : MemoryManager) (p : Process) : MemoryManager × Bool × Int :=
  match nextFitFind m.memory_map p.size m.next_fit_start with
  | some idx =>
    allocateBlock
      { m with next_fit_start := (idx + 1) % m.memory_map.length } idx p
  | none => (m, false, -1)

/-- Python `int.bit_length`, computed with structural fuel (`n` halves at
every step, so fuel `n` always suffices). -/
def bitLenAux : Nat → Nat → Nat
  | 0, _ => 0
  | fuel + 1, n => if n = 0 then 0 else bitLenAux fuel (n / 2) + 1

def bitLen (n : Nat) : Nat := bitLenAux n n

/-- `_next_power_of_two` (`memory_simulator.py:119-121`):
`1 << (n - 1).bit_length()`.  Python takes the bit length of the absolute
value, hence `natAbs`. -/
def nextPowerOfTwo (n : Int) : Int := (2 : Int) ^ bitLen (n - 1).natAbs

/-- The `while` loop of `_split_buddy_block` (`memory_simulator.py:123-130`)
rewritten as the list of blocks replacing the split block: while the block
is larger than `target`, it is halved (Python `//`, i.e. floor division)
and the upper half is inserted immediately after it, so later halves end
up *before* earlier ones.  The original block object keeps its identity;
each inserted half is a fresh FREE block.  `fuel` bounds the iteration
count; any `fuel ≥ size.toNat` is enough whenever `target ≥ 1` (the only
way the source calls it), since the size at least halves each round.
Returns the replacement run and the next fresh identity. -/
def buddyHalveAux (b : MemoryBlock) (target : Int) (next : Nat) :
    Nat → List MemoryBlock × Nat
  | 0 => ([b], next)
  | fuel + 1 =>
    if target < b.size then
      let h := Int.fdiv b.size 2
      let nb : MemoryBlock := ⟨b.start + h, h, "FREE", next⟩
      let r := buddyHalveAux { b with size := h } target (next + 1) fuel
      (r.1 ++ [nb], r.2)
    else ([b], next)

/-- `_split_buddy_block` (`memory_simulator.py:123-130`) applied to the
manager: replace the block at `index` by its halving run. -/
def splitBuddyBlock (m : MemoryManager) (index : Nat) (target : Int) :
    MemoryManager :=
  match m.memory_map[index]? with
  | none => m
  | some b =>
    let r := buddyHalveAux b target m.next_ident b.size.toNat
    { m with memory_map := replaceAt m.memory_map index r.1, next_ident := r.2 }

/-- `buddy_system` (`memory_simulator.py:103-117`): round the request up
to the next power of two, take the first FREE block at least that large;
commit it directly on exact match, otherwise split it first and commit
whatever block then sits at that index. -/
def buddySystem (m : MemoryManager) (p : Process) : MemoryManager × Bool × Int :=
  let need := nextPowerOfTwo p.size
  match findFirstFit need m.memory_map with
  | none => (m, false, -1)
  | some i =>
    match m.memory_map[i]? with
    | none => (m, false, -1)
    | some b =>
      if b.size = need then allocateBlock m i p
      else allocateBlock (splitBuddyBlock m i need) i p

/-- `_merge_free_blocks` (`memory_simulator.py:173-186`): the sweep that
repeatedly merges a FREE segment with its immediate FREE successor (the
index does not advance after a merge, so chains collapse fully). -/
def mergeFreeBlocks : List MemoryBlock → List MemoryBlock
  | [] => []
  | [b] => [b]
  | b1 :: b2 :: t =>
    if b1.pid = "FREE" ∧ b2.pid = "FREE" then
      mergeFreeBlocks ({ b1 with size := b1.size + b2.size } :: t)
    else
      b1 :: mergeFreeBlocks (b2 :: t)
termination_by l => l.length

/-- `deallocate` (`memory_simulator.py:157-171`): fail if the pid is not
in the allocation index; otherwise mark the referenced block FREE, return
its size to `available_memory`, drop the index entry, coalesce, snapshot. -/
def deallocate (m : MemoryManager) (pid : String) : MemoryManager × Bool :=
  match lookupAssoc m.allocated_processes pid with
  | none => (m, false)
  | some bid =>
    match findIdent m.memory_map bid with
    | none => (m, false)
    | some b =>
      let m1 := { m with
        memory_map := m.memory_map.map fun (x : MemoryBlock) =>
          if x.ident = bid then { x with pid := "FREE" } else x
        available_memory := m.available_memory + b.size
        allocated_processes := eraseAssoc m.allocated_processes pid }
      let m2 := { m1 with memory_map := mergeFreeBlocks m1.memory_map }
      (updateFrag m2, true)

/-- The five allocation strategies (`AllocationAlgorithm` in the source). -/
inductive Strategy where
  | firstFit
  | bestFit
  | worstFit
  | nextFit
  | buddySystem
deriving Repr, DecidableEq

def allocRun : Strategy → MemoryManager → Process → MemoryManager × Bool × Int
  | .firstFit, m, p => firstFit m p
  | .bestFit, m, p => bestFit m p
  | .worstFit, m, p => worstFit m p
  | .nextFit, m, p => nextFit m p
  | .buddySystem, m, p => buddySystem m p

/-- The `(start, size, owner)` triple of a segment — the view used by the
persisted-state format and by ledger comparisons (`ident` is object
identity, not ledger content). -/
def blockTuple (b : MemoryBlock) : Int × Int × String := (b.start, b.size, b.pid)

/-- Relocate a run of segments, in order, to consecutive addresses
starting at `a` (sizes, owners and object identities unchanged). -/
def packFrom (a : Int) : List MemoryBlock → List MemoryBlock
  | [] => []
  | b :: t => { b with start := a } :: packFrom (a + b.size) t

/-- Modelled from the spec: `compact_memory` is invoked by both test
suites (`fragmentation.py:230`, `tests/test_algorithms.py:228`) but is
implemented nowhere under `src/`.  Following spec §4.4: relocate all owned
segments, in their original relative order, to the lowest addresses with
no gaps, followed by exactly one trailing FREE segment holding all freed
space; owned segments are updated in place (same objects), and the ledger
mutation is followed by a fragmentation snapshot (§4.5). -/
def compactMemory (m : MemoryManager) : MemoryManager :=
  let owned := m.memory_map.filter (fun b => b.pid ≠ "FREE")
  let ownedTot : Int := (owned.map MemoryBlock.size).sum
  let trailing : MemoryBlock :=
    ⟨ownedTot, m.total_memory - ownedTot, "FREE", m.next_ident⟩
  updateFrag { m with
    memory_map := packFrom 0 owned ++ [trailing]
    next_ident := m.next_ident + 1 }

/-- `export_memory_state` (`main.py:245-270`), restricted to the part the
manager owns: the `memory_map` collection of `{start, size, pid}` records
in address order.  (The exported `processes` collection is the app-level
`process_history`, opaque passthrough never read back into the manager.) -/
def exportLedger (m : MemoryManager) : List (Int × Int × String) :=
  m.memory_map.map blockTuple

/-- Rebuild block objects from an imported document (fresh objects, hence
fresh identities). -/
def blocksOfDoc : List (Int × Int × String) → Nat → List MemoryBlock
  | [], _ => []
  | (s, z, p) :: t, i => ⟨s, z, p, i⟩ :: blocksOfDoc t (i + 1)

/-- `import_memory_state` (`main.py:272-307`): recreate
`MemoryManager(1024)` and overwrite its `memory_map` with the document's
segments.  Nothing else of the manager is restored: in particular
`allocated_processes` keeps the fresh manager's empty dict. -/
def importLedger (doc : List (Int × Int × String)) : MemoryManager :=
  { initManager 1024 with
    memory_map := blocksOfDoc doc 0
    next_ident := doc.length }

/-- The internal fragmentation prescribed by the spec (§4.5): the sum of
`segment.size - logical_request_size` over owned segments whose committed
segment is strictly larger than the logical (originally requested) size of
the owning request, the logical sizes being read off the log of issued
requests. -/
def specInternalFrag (map : List MemoryBlock) (log : List (String × Int)) : Int :=
  ((map.filter (fun b => b.pid ≠ "FREE")).map fun b =>
    match lookupAssoc log b.pid with
    | some logical => if logical < b.size then b.size - logical else 0
    | none => 0).sum

/-- States reachable from a freshly constructed manager
(`total_memory > 0`) by any sequence of calls to the five allocation
strategies (request sizes `> 0`, pids distinct from the `"FREE"`
sentinel) and `deallocate`.  Failed calls leave the state unchanged, so
including them adds no states. -/
inductive Reachable : MemoryManager → Prop where
  | init (total : Int) (ht : 0 < total) : Reachable (initManager total)
  | alloc (m : MemoryManager) (s : Strategy) (p : Process) (hm : Reachable m)
      (hsz : 0 < p.size) (hpid : p.pid ≠ "FREE") : Reachable (allocRun s m p).1
  | free (m : MemoryManager) (pid : String) (hm : Reachable m) :
      Reachable (deallocate m pid).1

/-- Reachability together with the log of successfully issued requests
(`(pid, size)` in issue order).  Request ids are unique (spec §3), so a
pid never recurs in the log. -/
inductive ReachableLog : MemoryManager → List (String × Int) → Prop where
  | init (total : Int) (ht : 0 < total) : ReachableLog (initManager total) []
  | alloc (m : MemoryManager) (log : List (String × Int)) (s : Strategy)
      (p : Process) (hm : ReachableLog m log) (hsz : 0 < p.size)
      (hpid : p.pid ≠ "FREE") (hfresh : p.pid ∉ log.map Prod.fst) :
      ReachableLog (allocRun s m p).1
        (if (allocRun s m p).2.1 then log ++ [(p.pid, p.size)] else log)
  | free (m : MemoryManager) (log : List (String × Int)) (pid : String)
      (hm : ReachableLog m log) : ReachableLog (deallocate m pid).1 log

/-- The allocation index is well formed: every entry's key is a genuine
pid and its value is the identity of a block physically present in the
ledger and owned by that pid. -/
def dictOK (m : MemoryManager) : Prop :=
  ∀ kb ∈ m.allocated_processes, kb.1 ≠ "FREE" ∧
    ∃ b ∈ m.memory_map, b.ident = kb.2 ∧ b.pid = kb.1

/-- The state invariant maintained by every operation: conservation of
`available_memory`, a well-formed allocation index, distinct block
identities bounded by the fresh-identity counter, distinct index keys,
and an all-zero internal-fragmentation history. -/
def ManagerInv (m : MemoryManager) : Prop :=
  m.available_memory = m.total_memory - ownedSum m.memory_map ∧
  dictOK m ∧
  (m.memory_map.map MemoryBlock.ident).Nodup ∧
  (∀ b ∈ m.memory_map, b.ident < m.next_ident) ∧
  (m.allocated_processes.map Prod.fst).Nodup ∧
  (∀ s ∈ m.fragmentation_history, s.internal = 0)

theorem lookupAssoc_insert_self {β : Type} (d : List (String × β)) (k : String) (v : β) :
    lookupAssoc (insertAssoc d k v) k = some v := by
  induction d with
  | nil => simp [insertAssoc, lookupAssoc]
  | cons kv t ih =>
    obtain ⟨k', v'⟩ := kv
    by_cases h : k' = k
    · simp [insertAssoc, h, lookupAssoc]
    · simp [insertAssoc, h, lookupAssoc, ih]

theorem mem_insertAssoc {β : Type} {d : List (String × β)} {kb : String × β}
    {k : String} {v : β} (h : kb ∈ insertAssoc d k v) : kb = (k, v) ∨ kb ∈ d := by
  induction d with
  | nil => simpa [insertAssoc] using h
  | cons kv t ih =>
    obtain ⟨k', v'⟩ := kv
    by_cases hk : k' = k
    · simp only [insertAssoc, if_pos hk, List.mem_cons] at h
      rcases h with h | h
      · exact Or.inl h
      · exact Or.inr (List.mem_cons_of_mem _ h)
    · simp only [insertAssoc, if_neg hk, List.mem_cons] at h
      rcases h with h | h
      · exact Or.inr (h ▸ List.mem_cons_self _ _)
      · rcases ih h with h' | h'
        · exact Or.inl h'
        · exact Or.inr (List.mem_cons_of_mem _ h')

theorem mem_keys_insertAssoc {β : Type} {d : List (String × β)} {a k : String}
    {v : β} (h : a ∈ (insertAssoc d k v).map Prod.fst) :
    a ∈ d.map Prod.fst ∨ a = k := by
  simp only [List.mem_map] at h
  obtain ⟨kb, hmem, hfst⟩ := h
  rcases mem_insertAssoc hmem with h' | h'
  · right; rw [← hfst, h']
  · left; exact List.mem_map.mpr ⟨kb, h', hfst⟩

theorem keys_nodup_insertAssoc {β : Type} {d : List (String × β)} {k : String}
    {v : β} (h : (d.map Prod.fst).Nodup) :
    ((insertAssoc d k v).map Prod.fst).Nodup := by
  induction d with
  | nil => simp [insertAssoc]
  | cons kv t ih =>
    obtain ⟨k', v'⟩ := kv
    simp only [List.map_cons, List.nodup_cons] at h
    by_cases hk : k' = k
    · subst hk
      simpa [insertAssoc, List.nodup_cons] using h
    · simp only [insertAssoc, if_neg hk, List.map_cons, List.nodup_cons]
      refine ⟨fun hmem => ?_, ih h.2⟩
      rcases mem_keys_insertAssoc hmem with h' | h'
      · exact h.1 h'
      · exact hk h'

theorem eraseAssoc_sublist {β : Type} (d : List (String × β)) (k : String) :
    List.Sublist (eraseAssoc d k) d := by
  induction d with
  | nil => simp [eraseAssoc]
  | cons kv t ih =>
    obtain ⟨k', v'⟩ := kv
    by_cases hk : k' = k
    · simp only [eraseAssoc, if_pos hk]
      exact List.sublist_cons_self _ _
    · simp only [eraseAssoc, if_neg hk]
      exact List.Sublist.cons₂ (k', v') ih

theorem mem_eraseAssoc {β : Type} {d : List (String × β)} {kb : String × β}
    {k : String} (hn : (d.map Prod.fst).Nodup) (h : kb ∈ eraseAssoc d k) :
    kb ∈ d ∧ kb.1 ≠ k := by
  induction d with
  | nil => simp [eraseAssoc] at h
  | cons kv t ih =>
    obtain ⟨k', v'⟩ := kv
    simp only [List.map_cons, List.nodup_cons] at hn
    by_cases hk : k' = k
    · subst hk
      simp only [eraseAssoc, if_pos rfl] at h
      refine ⟨List.mem_cons_of_mem _ h, fun hkb => ?_⟩
      exact hn.1 (List.mem_map.mpr ⟨kb, h, hkb⟩)
    · simp only [eraseAssoc, if_neg hk, List.mem_cons] at h
      rcases h with h | h
      · exact ⟨h ▸ List.mem_cons_self _ _, by simp [h, hk]⟩
      · obtain ⟨h1, h2⟩ := ih hn.2 h
        exact ⟨List.mem_cons_of_mem _ h1, h2⟩

theorem lookupAssoc_mem {β : Type} {d : List (String × β)} {k : String} {v : β}
    (h : lookupAssoc d k = some v) : (k, v) ∈ d := by
  induction d with
  | nil => simp [lookupAssoc] at h
  | cons kv t ih =>
    obtain ⟨k', v'⟩ := kv
    by_cases hk : k' = k
    · simp only [lookupAssoc, if_pos hk, Option.some.injEq] at h
      subst hk h
      exact List.mem_cons_self _ _
    · simp only [lookupAssoc, if_neg hk] at h
      exact List.mem_cons_of_mem _ (ih h)

theorem lookupAssoc_of_mem_nodup {β : Type} {d : List (String × β)}
    {kb : String × β} (hn : (d.map Prod.fst).Nodup) (h : kb ∈ d) :
    lookupAssoc d kb.1 = some kb.2 := by
  induction d with
  | nil => simp at h
  | cons kv t ih =>
    obtain ⟨k', v'⟩ := kv
    simp only [List.map_cons, List.nodup_cons] at hn
    rcases List.mem_cons.mp h with h | h
    · subst h; simp [lookupAssoc]
    · have hne : k' ≠ kb.1 := by
        intro he
        exact hn.1 (List.mem_map.mpr ⟨kb, h, he.symm⟩)
      simp only [lookupAssoc, if_neg hne]
      exact ih hn.2 h

theorem mem_keys_of_lookupAssoc {β : Type} {d : List (String × β)} {k : String}
    {v : β} (h : lookupAssoc d k = some v) : k ∈ d.map Prod.fst :=
  List.mem_map.mpr ⟨(k, v), lookupAssoc_mem h, rfl⟩

theorem lookupAssoc_append_left {β : Type} {d d2 : List (String × β)}
    {k : String} {v : β} (h : lookupAssoc d k = some v) :
    lookupAssoc (d ++ d2) k = some v := by
  induction d with
  | nil => simp [lookupAssoc] at h
  | cons kv t ih =>
    obtain ⟨k', v'⟩ := kv
    by_cases hk : k' = k
    · simpa [lookupAssoc, hk] using h
    · simp only [lookupAssoc, if_neg hk] at h ⊢
      exact ih h

theorem lookupAssoc_append_fresh {β : Type} {d : List (String × β)} {k : String}
    (v : β) (h : k ∉ d.map Prod.fst) :
    lookupAssoc (d ++ [(k, v)]) k = some v := by
  induction d with
  | nil => simp [lookupAssoc]
  | cons kv t ih =>
    obtain ⟨k', v'⟩ := kv
    simp only [List.map_cons, List.mem_cons] at h
    push_neg at h
    have hstep : lookupAssoc (((k', v') :: t) ++ [(k, v)]) k
        = lookupAssoc (t ++ [(k, v)]) k := by
      simp [lookupAssoc, h.1.symm]
    rw [hstep]
    exact ih h.2

theorem replaceAt_eq_append {α : Type} (l : List α) (i : Nat) (r : List α)
    (b : α) (h : l[i]? = some b) :
    replaceAt l i r = l.take i ++ r ++ l.drop (i + 1) := by
  induction l generalizing i with
  | nil => simp at h
  | cons a t ih =>
    cases i with
    | zero => simp [replaceAt]
    | succ n =>
      simp only [List.getElem?_cons_succ] at h
      simp [replaceAt, ih n h]

theorem eq_take_cons_drop {α : Type} (l : List α) (i : Nat) (b : α)
    (h : l[i]? = some b) : l = l.take i ++ b :: l.drop (i + 1) := by
  induction l generalizing i with
  | nil => simp at h
  | cons a t ih =>
    cases i with
    | zero =>
      simp only [List.getElem?_cons_zero, Option.some.injEq] at h
      simp [h]
    | succ n =>
      simp only [List.getElem?_cons_succ] at h
      simpa using ih n h

theorem findIdent_append_of_not {l1 l2 : List MemoryBlock} {j : Nat}
    (h : ∀ x ∈ l1, x.ident ≠ j) :
    findIdent (l1 ++ l2) j = findIdent l2 j := by
  induction l1 with
  | nil => simp
  | cons a t ih =>
    have ha : ¬(a.ident = j) := h a (List.mem_cons_self _ _)
    have hstep : findIdent ((a :: t) ++ l2) j = findIdent (t ++ l2) j := by
      simp [findIdent, List.find?_cons, ha]
    rw [hstep]
    exact ih fun x hx => h x (List.mem_cons_of_mem _ hx)

theorem findIdent_cons_self {b : MemoryBlock} {t : List MemoryBlock}
    (h : b.ident = j) : findIdent (b :: t) j = some b := by
  simp [findIdent, List.find?_cons, h]

theorem findIdent_mem {l : List MemoryBlock} {j : Nat} {b : MemoryBlock}
    (h : findIdent l j = some b) : b ∈ l ∧ b.ident = j := by
  have h1 := List.find?_some h
  have h2 := List.mem_of_find?_eq_some h
  exact ⟨h2, by simpa using h1⟩

theorem findIdent_unique {l : List MemoryBlock} {b : MemoryBlock}
    (hn : (l.map MemoryBlock.ident).Nodup) (hb : b ∈ l) :
    findIdent l b.ident = some b := by
  induction l with
  | nil => simp at hb
  | cons a t ih =>
    simp only [List.map_cons, List.nodup_cons] at hn
    rcases List.mem_cons.mp hb with h | h
    · subst h
      exact findIdent_cons_self rfl
    · have hne : ¬(a.ident = b.ident) := by
        intro he
        exact hn.1 (he ▸ List.mem_map.mpr ⟨b, h, rfl⟩)
      have hstep : findIdent (a :: t) b.ident = findIdent t b.ident := by
        simp [findIdent, List.find?_cons, hne]
      rw [hstep]
      exact ih hn.2 h

theorem ownedSum_append (l1 l2 : List MemoryBlock) :
    ownedSum (l1 ++ l2) = ownedSum l1 + ownedSum l2 := by
  simp [ownedSum, List.filter_append]

theorem ownedSum_cons_free {b : MemoryBlock} {t : List MemoryBlock}
    (h : b.pid = "FREE") : ownedSum (b :: t) = ownedSum t := by
  simp [ownedSum, List.filter_cons, h]

theorem ownedSum_cons_owned {b : MemoryBlock} {t : List MemoryBlock}
    (h : b.pid ≠ "FREE") : ownedSum (b :: t) = b.size + ownedSum t := by
  simp [ownedSum, List.filter_cons, h]

theorem ownedSum_nil : ownedSum [] = 0 := rfl

theorem sumSizes_append (l1 l2 : List MemoryBlock) :
    sumSizes (l1 ++ l2) = sumSizes l1 + sumSizes l2 := by
  simp [sumSizes]

theorem merge_filter_owned (l : List MemoryBlock) :
    (mergeFreeBlocks l).filter (fun b => b.pid ≠ "FREE")
      = l.filter (fun b => b.pid ≠ "FREE") := by
  induction l using mergeFreeBlocks.induct with
  | case1 => simp [mergeFreeBlocks]
  | case2 b => simp [mergeFreeBlocks]
  | case3 b1 b2 t h ih =>
    rw [mergeFreeBlocks, if_pos h, ih]
    simp [List.filter_cons, h.1, h.2]
  | case4 b1 b2 t h ih =>
    rw [mergeFreeBlocks, if_neg h]
    simp only [List.filter_cons]
    rw [ih]
    simp [List.filter_cons]

theorem merge_idents_sublist (l : List MemoryBlock) :
    List.Sublist ((mergeFreeBlocks l).map MemoryBlock.ident)
      (l.map MemoryBlock.ident) := by
  induction l using mergeFreeBlocks.induct with
  | case1 => simp [mergeFreeBlocks]
  | case2 b => simp [mergeFreeBlocks]
  | case3 b1 b2 t h ih =>
    rw [mergeFreeBlocks, if_pos h]
    refine List.Sublist.trans ih ?_
    simp only [List.map_cons]
    exact (List.sublist_cons_self _ _).cons₂ _
  | case4 b1 b2 t h ih =>
    rw [mergeFreeBlocks, if_neg h]
    simp only [List.map_cons]
    exact ih.cons₂ _

theorem merge_ownedSum (l : List MemoryBlock) :
    ownedSum (mergeFreeBlocks l) = ownedSum l := by
  unfold ownedSum
  rw [merge_filter_owned]

theorem mem_merge_of_owned {l : List MemoryBlock} {b : MemoryBlock}
    (h : b ∈ l) (ho : b.pid ≠ "FREE") : b ∈ mergeFreeBlocks l := by
  have : b ∈ (mergeFreeBlocks l).filter (fun x => x.pid ≠ "FREE") := by
    rw [merge_filter_owned]
    simp [List.mem_filter, h, ho]
  exact (List.mem_filter.mp this).1

theorem owned_of_mem_merge {l : List MemoryBlock} {b : MemoryBlock}
    (h : b ∈ mergeFreeBlocks l) (ho : b.pid ≠ "FREE") : b ∈ l := by
  have : b ∈ (mergeFreeBlocks l).filter (fun x => x.pid ≠ "FREE") := by
    simp [List.mem_filter, h, ho]
  rw [merge_filter_owned] at this
  exact (List.mem_filter.mp this).1

theorem mem_replaceAt_of_mem_ne {α : Type} {l r : List α} {i : Nat} {b x : α}
    (hget : l[i]? = some b) (hx : x ∈ l) (hne : x ≠ b) : x ∈ replaceAt l i r := by
  rw [replaceAt_eq_append l i r b hget]
  have hl := eq_take_cons_drop l i b hget
  rw [hl] at hx
  simp only [List.mem_append, List.mem_cons] at hx
  rcases hx with h | h | h
  · simp [List.mem_append, h]
  · exact absurd h hne
  · simp [List.mem_append, h]

theorem mem_replaceAt_of_mem_run {α : Type} {l r : List α} {i : Nat} {b x : α}
    (hget : l[i]? = some b) (hx : x ∈ r) : x ∈ replaceAt l i r := by
  rw [replaceAt_eq_append l i r b hget]
  simp [List.mem_append, hx]

theorem mem_of_mem_replaceAt {α : Type} {l r : List α} {i : Nat} {b x : α}
    (hget : l[i]? = some b) (hx : x ∈ replaceAt l i r) : x ∈ r ∨ x ∈ l := by
  rw [replaceAt_eq_append l i r b hget] at hx
  simp only [List.mem_append] at hx
  rcases hx with (h | h) | h
  · exact Or.inr (List.mem_of_mem_take h)
  · exact Or.inl h
  · exact Or.inr (List.mem_of_mem_drop h)

theorem getElem?_replaceAt_self {α : Type} {l r : List α} {i : Nat} {b : α}
    (hget : l[i]? = some b) {c : α} {rest : List α} (hr : r = c :: rest) :
    (replaceAt l i r)[i]? = some c := by
  have hi : i < l.length := by
    by_contra hlt
    push_neg at hlt
    rw [List.getElem?_eq_none hlt] at hget
    exact Option.noConfusion hget
  rw [replaceAt_eq_append l i r b hget, hr]
  have hlen : (l.take i).length = i := List.length_take_of_le (le_of_lt hi)
  rw [List.append_assoc, List.getElem?_append_right (le_of_eq hlen)]
  simp [hlen]

theorem ownedSum_replaceAt_free {l r : List MemoryBlock} {i : Nat}
    {b : MemoryBlock} (hget : l[i]? = some b) (hfree : b.pid = "FREE") :
    ownedSum (replaceAt l i r) = ownedSum l + ownedSum r := by
  rw [replaceAt_eq_append l i r b hget]
  conv_rhs => rw [eq_take_cons_drop l i b hget]
  rw [ownedSum_append, ownedSum_append, ownedSum_append,
    ownedSum_cons_free hfree]
  ring

theorem ownedSum_eq_zero_of_free {l : List MemoryBlock}
    (h : ∀ x ∈ l, x.pid = "FREE") : ownedSum l = 0 := by
  induction l with
  | nil => rfl
  | cons a t ih =>
    rw [ownedSum_cons_free (h a (List.mem_cons_self _ _))]
    exact ih fun x hx => h x (List.mem_cons_of_mem _ hx)

theorem nodup_three_append {α : Type} {l1 l2 l3 : List α}
    (h1 : l1.Nodup) (h2 : l2.Nodup) (h3 : l3.Nodup)
    (d12 : ∀ a ∈ l1, a ∉ l2) (d13 : ∀ a ∈ l1, a ∉ l3)
    (d23 : ∀ a ∈ l2, a ∉ l3) : (l1 ++ l2 ++ l3).Nodup := by
  rw [List.append_assoc, List.nodup_append]
  refine ⟨h1, ?_, ?_⟩
  · rw [List.nodup_append]
    exact ⟨h2, h3, fun a ha hb => d23 a ha hb⟩
  · intro a ha hmem
    rcases List.mem_append.mp hmem with h | h
    · exact d12 a ha h
    · exact d13 a ha h

theorem replaceAt_idents_ok {l r : List MemoryBlock} {i : Nat}
    {b : MemoryBlock} {next fin : Nat}
    (hget : l[i]? = some b)
    (hln : (l.map MemoryBlock.ident).Nodup)
    (hlb : ∀ x ∈ l, x.ident < next)
    (hrn : (r.map MemoryBlock.ident).Nodup)
    (hr : ∀ x ∈ r, x.ident = b.ident ∨ (next ≤ x.ident ∧ x.ident < fin))
    (hnf : next ≤ fin) :
    ((replaceAt l i r).map MemoryBlock.ident).Nodup ∧
      ∀ x ∈ replaceAt l i r, x.ident < fin := by
  have hl := eq_take_cons_drop l i b hget
  have hln' := hln
  rw [hl, List.map_append, List.map_cons, List.nodup_append] at hln'
  obtain ⟨h1, hcons, hdisj⟩ := hln'
  rw [List.nodup_cons] at hcons
  obtain ⟨hbd, h2⟩ := hcons
  have hbtk : b.ident ∉ (l.take i).map MemoryBlock.ident :=
    fun hmem => hdisj hmem (List.mem_cons_self _ _)
  have htkdr : ∀ a ∈ (l.take i).map MemoryBlock.ident,
      a ∉ (l.drop (i + 1)).map MemoryBlock.ident :=
    fun a ha hb2 => hdisj ha (List.mem_cons_of_mem _ hb2)
  have htk : ∀ x ∈ l.take i, x.ident < next :=
    fun x hx => hlb x (List.mem_of_mem_take hx)
  have hdr : ∀ x ∈ l.drop (i + 1), x.ident < next :=
    fun x hx => hlb x (List.mem_of_mem_drop hx)
  have hbn : b.ident < next := by
    have hbmem : b ∈ l := by rw [hl]; simp [List.mem_append]
    exact hlb b hbmem
  constructor
  · rw [replaceAt_eq_append l i r b hget, List.map_append, List.map_append]
    apply nodup_three_append h1 hrn h2
    · intro a ha hb2
      simp only [List.mem_map] at ha hb2
      obtain ⟨x, hx, rfl⟩ := ha
      obtain ⟨y, hy, hxy⟩ := hb2
      rcases hr y hy with he | ⟨hge, _⟩
      · apply hbtk
        have hx2 : x.ident = b.ident := (hxy.symm.trans he)
        exact hx2 ▸ List.mem_map.mpr ⟨x, hx, rfl⟩
      · have := htk x hx
        omega
    · intro a ha hb2
      exact htkdr a ha hb2
    · intro a ha hb2
      simp only [List.mem_map] at ha hb2
      obtain ⟨x, hx, rfl⟩ := ha
      obtain ⟨y, hy, hxy⟩ := hb2
      rcases hr x hx with he | ⟨hge, _⟩
      · exact hbd (he ▸ List.mem_map.mpr ⟨y, hy, hxy⟩)
      · have := hdr y hy
        omega
  · intro x hx
    rcases mem_of_mem_replaceAt hget hx with h | h
    · rcases hr x h with he | ⟨_, hlt⟩
      · omega
      · exact hlt
    · exact lt_of_lt_of_le (hlb x h) hnf

theorem buddyHalveAux_spec (target : Int) :
    ∀ (fuel : Nat) (b : MemoryBlock) (next : Nat), b.ident < next →
    next ≤ (buddyHalveAux b target next fuel).2 ∧
    (∃ b1 t1, (buddyHalveAux b target next fuel).1 = b1 :: t1 ∧
      b1.start = b.start ∧ b1.pid = b.pid ∧ b1.ident = b.ident) ∧
    (∀ x ∈ (buddyHalveAux b target next fuel).1,
      (x.pid = b.pid ∨ x.pid = "FREE") ∧
      (x.ident = b.ident ∨
        (next ≤ x.ident ∧ x.ident < (buddyHalveAux b target next fuel).2))) ∧
    ((buddyHalveAux b target next fuel).1.map MemoryBlock.ident).Nodup := by
  intro fuel
  induction fuel with
  | zero =>
    intro b next hb
    refine ⟨le_refl _, ⟨b, [], rfl, rfl, rfl, rfl⟩, ?_, by simp [buddyHalveAux]⟩
    intro x hx
    simp only [buddyHalveAux, List.mem_singleton] at hx
    subst hx
    exact ⟨Or.inl rfl, Or.inl rfl⟩
  | succ fuel ih =>
    intro b next hb
    by_cases hlt : target < b.size
    · have hb' : ({ b with size := Int.fdiv b.size 2 } : MemoryBlock).ident < next + 1 := by
        simp only []
        omega
      obtain ⟨ih1, ⟨b1, t1, ihr, ihs, ihp, ihi⟩, ih3, ih4⟩ :=
        ih { b with size := Int.fdiv b.size 2 } (next + 1) hb'
      have hunf : buddyHalveAux b target next (fuel + 1)
          = ((buddyHalveAux { b with size := Int.fdiv b.size 2 } target (next + 1) fuel).1
              ++ [⟨b.start + Int.fdiv b.size 2, Int.fdiv b.size 2, "FREE", next⟩],
            (buddyHalveAux { b with size := Int.fdiv b.size 2 } target (next + 1) fuel).2) := by
        rw [buddyHalveAux, if_pos hlt]
      rw [hunf]
      refine ⟨by omega,
        ⟨b1, t1 ++ [⟨b.start + Int.fdiv b.size 2, Int.fdiv b.size 2, "FREE", next⟩],
          by rw [ihr]; simp, ihs, ihp, ihi⟩, ?_, ?_⟩
      · intro x hx
        simp only [List.mem_append, List.mem_singleton] at hx
        rcases hx with hx | hx
        · obtain ⟨hp, hi⟩ := ih3 x hx
          refine ⟨hp, ?_⟩
          rcases hi with hi | ⟨hi1, hi2⟩
          · exact Or.inl hi
          · exact Or.inr ⟨by omega, hi2⟩
        · subst hx
          exact ⟨Or.inr rfl,
            Or.inr ⟨le_refl _, lt_of_lt_of_le (Nat.lt_succ_self next) ih1⟩⟩
      · simp only [List.map_append, List.nodup_append, List.map_cons, List.map_nil]
        refine ⟨ih4, by simp, ?_⟩
        intro a ha hmem
        rw [List.mem_singleton] at hmem
        have hmem' : a = next := hmem
        simp only [List.mem_map] at ha
        obtain ⟨x, hx, hxa⟩ := ha
        have hxa' : x.ident = a := hxa
        rcases (ih3 x hx).2 with he | ⟨hge, hlt2⟩
        · have he' : x.ident = b.ident := he
          omega
        · have hge' : next + 1 ≤ x.ident := hge
          omega
    · rw [buddyHalveAux, if_neg hlt]
      refine ⟨le_refl _, ⟨b, [], rfl, rfl, rfl, rfl⟩, ?_, by simp⟩
      intro x hx
      simp only [List.mem_singleton] at hx
      subst hx
      exact ⟨Or.inl rfl, Or.inl rfl⟩

theorem internalFrag_eq_zero (m : MemoryManager)
    (hk : (m.allocated_processes.map Prod.fst).Nodup) : internalFrag m = 0 := by
  unfold internalFrag
  apply List.sum_eq_zero
  intro x hx
  simp only [List.mem_map] at hx
  obtain ⟨kb, hkb, rfl⟩ := hx
  cases hfi : findIdent m.memory_map kb.2 with
  | none => simp
  | some b =>
    have hlu : lookupAssoc m.allocated_processes kb.1 = some kb.2 :=
      lookupAssoc_of_mem_nodup hk hkb
    simp [getProcessByPid, hlu, hfi]

theorem mem_of_getElem?_some {α : Type} {l : List α} {i : Nat} {a : α}
    (h : l[i]? = some a) : a ∈ l := by
  rw [eq_take_cons_drop l i a h]
  simp [List.mem_append]

theorem take_idents_ne {l : List MemoryBlock} {i : Nat} {b : MemoryBlock}
    (hget : l[i]? = some b) (hn : (l.map MemoryBlock.ident).Nodup) :
    ∀ x ∈ l.take i, x.ident ≠ b.ident := by
  intro x hx he
  have hl := eq_take_cons_drop l i b hget
  rw [hl, List.map_append, List.map_cons, List.nodup_append] at hn
  exact hn.2.2 (List.mem_map.mpr ⟨x, hx, rfl⟩) (he ▸ List.mem_cons_self _ _)

/-- The state produced by `_allocate_block` when the selected block is
FREE preserves the manager invariant, for any replacement run `r` whose
owned content is exactly the committed segment. -/
theorem commit_state_inv {m : MemoryManager} {index : Nat} {p : Process}
    {b : MemoryBlock} {r : List MemoryBlock} {fin : Nat}
    (hget : m.memory_map[index]? = some b)
    (hfree : b.pid = "FREE") (hpid : p.pid ≠ "FREE")
    (hinv : ManagerInv m)
    (hsum : ownedSum r = p.size)
    (hrn : (r.map MemoryBlock.ident).Nodup)
    (hr : ∀ x ∈ r, x.ident = b.ident ∨ (m.next_ident ≤ x.ident ∧ x.ident < fin))
    (hcommit : ∃ c ∈ r, c.ident = b.ident ∧ c.pid = p.pid)
    (hfin : m.next_ident ≤ fin) :
    ManagerInv (updateFrag { m with
      memory_map := replaceAt m.memory_map index r
      allocated_processes := insertAssoc m.allocated_processes p.pid b.ident
      available_memory := m.available_memory - p.size
      allocation_count := m.allocation_count + 1
      next_ident := fin }) := by
  obtain ⟨hA, hB, hC, hD, hF, hE⟩ := hinv
  have hids := replaceAt_idents_ok hget hC hD hrn hr hfin
  obtain ⟨c, hcr, hci, hcp⟩ := hcommit
  refine ⟨?_, ?_, hids.1, hids.2, keys_nodup_insertAssoc hF, ?_⟩
  · show m.available_memory - p.size
      = m.total_memory - ownedSum (replaceAt m.memory_map index r)
    rw [ownedSum_replaceAt_free hget hfree, hsum, hA]
    ring
  · intro kb hkb
    rcases mem_insertAssoc hkb with hkb | hkb
    · subst hkb
      exact ⟨hpid, c, mem_replaceAt_of_mem_run hget hcr, hci, hcp⟩
    · obtain ⟨hk, b', hb', hbi, hbp⟩ := hB kb hkb
      refine ⟨hk, b', ?_, hbi, hbp⟩
      have hne : b' ≠ b := fun he => hk (by rw [← hbp, he, hfree])
      exact mem_replaceAt_of_mem_ne hget hb' hne
  · intro s hs
    simp only [updateFrag, List.mem_append, List.mem_singleton] at hs
    rcases hs with hs | hs
    · exact hE s hs
    · subst hs
      exact internalFrag_eq_zero _ (keys_nodup_insertAssoc hF)

/-- `_allocate_block` on a FREE block preserves the invariant. -/
theorem allocateBlock_inv {m : MemoryManager} {index : Nat} {p : Process}
    {b : MemoryBlock} (hget : m.memory_map[index]? = some b)
    (hfree : b.pid = "FREE") (hpid : p.pid ≠ "FREE")
    (hinv : ManagerInv m) : ManagerInv (allocateBlock m index p).1 := by
  have hbn : b.ident < m.next_ident := hinv.2.2.2.1 b (mem_of_getElem?_some hget)
  simp only [allocateBlock, hget]
  by_cases hsz : b.size = p.size
  · rw [if_pos hsz]
    refine commit_state_inv hget hfree hpid hinv ?_ ?_ ?_ ?_ (le_refl _)
    · show ownedSum [{ b with pid := p.pid }] = p.size
      rw [ownedSum_cons_owned hpid, ownedSum_nil]
      simpa using hsz
    · simp
    · intro x hx
      rw [List.mem_singleton] at hx
      subst hx
      exact Or.inl rfl
    · exact ⟨{ b with pid := p.pid }, List.mem_singleton.mpr rfl, rfl, rfl⟩
  · rw [if_neg hsz]
    refine commit_state_inv hget hfree hpid hinv ?_ ?_ ?_ ?_ (Nat.le_succ _)
    · show ownedSum
        [⟨b.start, p.size, p.pid, b.ident⟩,
         ⟨b.start + p.size, b.size - p.size, "FREE", m.next_ident⟩] = p.size
      rw [ownedSum_cons_owned hpid, ownedSum_cons_free rfl, ownedSum_nil]
      ring
    · simp only [List.map_cons, List.map_nil, List.nodup_cons, List.nodup_nil]
      refine ⟨?_, by simp, trivial⟩
      simp only [List.mem_singleton, List.not_mem_nil, or_false, List.mem_cons]
      omega
    · intro x hx
      simp only [List.mem_cons, List.not_mem_nil, or_false] at hx
      rcases hx with hx | hx
      · subst hx
        exact Or.inl rfl
      · subst hx
        exact Or.inr ⟨le_refl _, Nat.lt_succ_self _⟩
    · exact ⟨⟨b.start, p.size, p.pid, b.ident⟩, List.mem_cons_self _ _, rfl, rfl⟩

/-- On a valid index, `_allocate_block` succeeds, returns the selected
block's start address, records the allocation-index entry for the pid, and
the committed segment (the block the index entry references) has size
exactly `p.size`; `available_memory` drops by exactly `p.size`. -/
theorem allocateBlock_success {m : MemoryManager} {index : Nat} {p : Process}
    {b : MemoryBlock} (hget : m.memory_map[index]? = some b)
    (hnodup : (m.memory_map.map MemoryBlock.ident).Nodup) :
    (allocateBlock m index p).2.1 = true ∧
    (allocateBlock m index p).2.2 = b.start ∧
    lookupAssoc (allocateBlock m index p).1.allocated_processes p.pid
      = some b.ident ∧
    (∃ c : MemoryBlock,
      findIdent (allocateBlock m index p).1.memory_map b.ident = some c ∧
      c.size = p.size ∧ c.pid = p.pid ∧ c.start = b.start) ∧
    (allocateBlock m index p).1.available_memory
      = m.available_memory - p.size := by
  have htk := take_idents_ne hget hnodup
  simp only [allocateBlock, hget]
  by_cases hsz : b.size = p.size
  · rw [if_pos hsz]
    refine ⟨rfl, rfl, lookupAssoc_insert_self _ _ _, ?_, rfl⟩
    refine ⟨{ b with pid := p.pid }, ?_, hsz, rfl, rfl⟩
    show findIdent (replaceAt m.memory_map index [{ b with pid := p.pid }])
        b.ident = some { b with pid := p.pid }
    rw [replaceAt_eq_append _ _ _ _ hget, List.append_assoc,
      findIdent_append_of_not fun x hx => htk x hx, List.cons_append]
    exact findIdent_cons_self rfl
  · rw [if_neg hsz]
    refine ⟨rfl, rfl, lookupAssoc_insert_self _ _ _, ?_, rfl⟩
    refine ⟨⟨b.start, p.size, p.pid, b.ident⟩, ?_, rfl, rfl, rfl⟩
    show findIdent (replaceAt m.memory_map index
        [⟨b.start, p.size, p.pid, b.ident⟩,
         ⟨b.start + p.size, b.size - p.size, "FREE", m.next_ident⟩])
        b.ident = some ⟨b.start, p.size, p.pid, b.ident⟩
    rw [replaceAt_eq_append _ _ _ _ hget, List.append_assoc,
      findIdent_append_of_not fun x hx => htk x hx, List.cons_append]
    exact findIdent_cons_self rfl

theorem findFirstFit_some {sz : Int} {l : List MemoryBlock} {i : Nat}
    (h : findFirstFit sz l = some i) :
    ∃ b, l[i]? = some b ∧ b.pid = "FREE" ∧ sz ≤ b.size := by
  induction l generalizing i with
  | nil => simp [findFirstFit] at h
  | cons a t ih =>
    by_cases ha : a.pid = "FREE" ∧ sz ≤ a.size
    · rw [findFirstFit, if_pos ha] at h
      injection h with h0
      subst h0
      exact ⟨a, List.getElem?_cons_zero, ha.1, ha.2⟩
    · rw [findFirstFit, if_neg ha] at h
      cases hfind : findFirstFit sz t with
      | none =>
        rw [hfind] at h
        exact absurd h (by simp)
      | some j =>
        rw [hfind] at h
        simp only [Option.map_some'] at h
        injection h with h0
        subst h0
        obtain ⟨b, hb, hbf, hbs⟩ := ih hfind
        exact ⟨b, by rw [List.getElem?_cons_succ]; exact hb, hbf, hbs⟩

theorem bestFitAux_some {sz : Int} (l : List MemoryBlock) (i : Nat)
    (acc : Option (Nat × Int)) :
    ∀ {j : Nat} {w : Int}, bestFitAux sz l i acc = some (j, w) →
      acc = some (j, w) ∨
      ∃ k b, l[k]? = some b ∧ j = i + k ∧ b.pid = "FREE" ∧ sz ≤ b.size := by
  induction l, i, acc using bestFitAux.induct sz with
  | case1 i acc =>
    intro j w h
    exact Or.inl h
  | case2 b t i hel w0 =>
    rename_i ih
    intro j w h
    simp only [bestFitAux, if_pos hel] at h
    rcases ih h with h2 | h2
    · injection h2 with h2
      have hj : i = j := congrArg Prod.fst h2
      subst hj
      exact Or.inr ⟨0, b, List.getElem?_cons_zero, by omega, hel.1, hel.2⟩
    · obtain ⟨k, b', hkb, hjk, hbf, hbs⟩ := h2
      exact Or.inr ⟨k + 1, b', by rw [List.getElem?_cons_succ]; exact hkb,
        by omega, hbf, hbs⟩
  | case3 b t i hel w0 bi bw hw =>
    rename_i ih
    intro j w h
    simp only [bestFitAux, if_pos hel, if_pos hw] at h
    rcases ih h with h2 | h2
    · injection h2 with h2
      have hj : i = j := congrArg Prod.fst h2
      subst hj
      exact Or.inr ⟨0, b, List.getElem?_cons_zero, by omega, hel.1, hel.2⟩
    · obtain ⟨k, b', hkb, hjk, hbf, hbs⟩ := h2
      exact Or.inr ⟨k + 1, b', by rw [List.getElem?_cons_succ]; exact hkb,
        by omega, hbf, hbs⟩
  | case4 b t i hel w0 bi bw hw =>
    rename_i ih
    intro j w h
    simp only [bestFitAux, if_pos hel, if_neg hw] at h
    rcases ih h with h2 | h2
    · exact Or.inl h2
    · obtain ⟨k, b', hkb, hjk, hbf, hbs⟩ := h2
      exact Or.inr ⟨k + 1, b', by rw [List.getElem?_cons_succ]; exact hkb,
        by omega, hbf, hbs⟩
  | case5 b t i acc hel ih =>
    intro j w h
    simp only [bestFitAux, if_neg hel] at h
    rcases ih h with h2 | h2
    · exact Or.inl h2
    · obtain ⟨k, b', hkb, hjk, hbf, hbs⟩ := h2
      exact Or.inr ⟨k + 1, b', by rw [List.getElem?_cons_succ]; exact hkb,
        by omega, hbf, hbs⟩

theorem worstFitAux_some {sz : Int} (l : List MemoryBlock) (i : Nat)
    (acc : Option (Nat × Int)) :
    ∀ {j : Nat} {w : Int}, worstFitAux sz l i acc = some (j, w) →
      acc = some (j, w) ∨
      ∃ k b, l[k]? = some b ∧ j = i + k ∧ b.pid = "FREE" ∧ sz ≤ b.size := by
  induction l, i, acc using worstFitAux.induct sz with
  | case1 i acc =>
    intro j w h
    exact Or.inl h
  | case2 b t i acc hel c0 hgt =>
    rename_i ih
    intro j w h
    simp only [worstFitAux, if_pos hel, if_pos hgt] at h
    rcases ih h with h2 | h2
    · injection h2 with h2
      have hj : i = j := congrArg Prod.fst h2
      subst hj
      exact Or.inr ⟨0, b, List.getElem?_cons_zero, by omega, hel.1, hel.2⟩
    · obtain ⟨k, b', hkb, hjk, hbf, hbs⟩ := h2
      exact Or.inr ⟨k + 1, b', by rw [List.getElem?_cons_succ]; exact hkb,
        by omega, hbf, hbs⟩
  | case3 b t i acc hel c0 hng =>
    rename_i ih
    intro j w h
    simp only [worstFitAux, if_pos hel, if_neg hng] at h
    rcases ih h with h2 | h2
    · exact Or.inl h2
    · obtain ⟨k, b', hkb, hjk, hbf, hbs⟩ := h2
      exact Or.inr ⟨k + 1, b', by rw [List.getElem?_cons_succ]; exact hkb,
        by omega, hbf, hbs⟩
  | case4 b t i acc hne ih =>
    intro j w h
    simp only [worstFitAux, if_neg hne] at h
    rcases ih h with h2 | h2
    · exact Or.inl h2
    · obtain ⟨k, b', hkb, hjk, hbf, hbs⟩ := h2
      exact Or.inr ⟨k + 1, b', by rw [List.getElem?_cons_succ]; exact hkb,
        by omega, hbf, hbs⟩

/-- A ledger position is eligible for a request of size `sz`: it holds a
FREE segment at least that large. -/
def eligibleAt (map : List MemoryBlock) (sz : Int) (t : Nat) : Prop :=
  ∃ b, map[t]? = some b ∧ b.pid = "FREE" ∧ sz ≤ b.size

theorem nextFitAux_some {map : List MemoryBlock} {sz : Int} {start n : Nat}
    (i fuel : Nat) :
    ∀ {idx : Nat}, nextFitAux map sz start n i fuel = some idx →
      ∃ k, i ≤ k ∧ k < i + fuel ∧ idx = (start + k) % n ∧
        eligibleAt map sz idx ∧
        ∀ j, i ≤ j → j < k → ¬eligibleAt map sz ((start + j) % n) := by
  induction i, fuel using nextFitAux.induct map sz start n with
  | case1 i =>
    intro idx h
    simp [nextFitAux] at h
  | case2 i fuel idx0 b hget =>
    rename_i hel
    intro idx h
    simp only [nextFitAux, hget, if_pos hel] at h
    injection h with h0
    subst h0
    exact ⟨i, le_refl _, by omega, rfl, ⟨b, hget, hel.1, hel.2⟩,
      fun j hj1 hj2 => absurd hj2 (by omega)⟩
  | case3 i fuel idx0 b hget hne =>
    rename_i ih
    intro idx h
    simp only [nextFitAux, hget, if_neg hne] at h
    obtain ⟨k, hk1, hk2, hk3, hk4, hk5⟩ := ih h
    refine ⟨k, by omega, by omega, hk3, hk4, ?_⟩
    intro j hj1 hj2
    rcases Nat.eq_or_lt_of_le hj1 with hj | hj
    · subst hj
      intro ⟨b', hb', hbf, hbs⟩
      rw [hget] at hb'
      injection hb' with hb'
      exact hne (hb' ▸ ⟨hbf, hbs⟩)
    · exact hk5 j hj hj2
  | case4 i fuel idx0 hget =>
    rename_i ih
    intro idx h
    simp only [nextFitAux, hget] at h
    obtain ⟨k, hk1, hk2, hk3, hk4, hk5⟩ := ih h
    refine ⟨k, by omega, by omega, hk3, hk4, ?_⟩
    intro j hj1 hj2
    rcases Nat.eq_or_lt_of_le hj1 with hj | hj
    · subst hj
      intro ⟨b', hb', hbf, hbs⟩
      rw [hget] at hb'
      exact Option.noConfusion hb'
    · exact hk5 j hj hj2

theorem nextFitAux_none {map : List MemoryBlock} {sz : Int} {start n : Nat}
    (i fuel : Nat) :
    nextFitAux map sz start n i fuel = none →
      ∀ k, i ≤ k → k < i + fuel → ¬eligibleAt map sz ((start + k) % n) := by
  induction i, fuel using nextFitAux.induct map sz start n with
  | case1 i =>
    intro h k hk1 hk2
    omega
  | case2 i fuel idx0 b hget =>
    rename_i hel
    intro h
    simp only [nextFitAux, hget, if_pos hel] at h
    exact Option.noConfusion h
  | case3 i fuel idx0 b hget hne =>
    rename_i ih
    intro h k hk1 hk2
    simp only [nextFitAux, hget, if_neg hne] at h
    rcases Nat.eq_or_lt_of_le hk1 with hk | hk
    · subst hk
      intro ⟨b', hb', hbf, hbs⟩
      rw [hget] at hb'
      injection hb' with hb'
      exact hne (hb' ▸ ⟨hbf, hbs⟩)
    · exact ih h k hk (by omega)
  | case4 i fuel idx0 hget =>
    rename_i ih
    intro h k hk1 hk2
    simp only [nextFitAux, hget] at h
    rcases Nat.eq_or_lt_of_le hk1 with hk | hk
    · subst hk
      intro ⟨b', hb', hbf, hbs⟩
      rw [hget] at hb'
      exact Option.noConfusion hb'
    · exact ih h k hk (by omega)

theorem ident_inj {l : List MemoryBlock} {x y : MemoryBlock}
    (hn : (l.map MemoryBlock.ident).Nodup) (hx : x ∈ l) (hy : y ∈ l)
    (he : x.ident = y.ident) : x = y := by
  have h1 := findIdent_unique hn hx
  have h2 := findIdent_unique hn hy
  rw [he] at h1
  rw [h1] at h2
  injection h2 with h2

theorem map_freeIf_id {t : List MemoryBlock} {j : Nat}
    (h : ∀ x ∈ t, x.ident ≠ j) :
    (t.map fun (x : MemoryBlock) =>
      if x.ident = j then { x with pid := "FREE" } else x) = t := by
  induction t with
  | nil => rfl
  | cons a t ih =>
    simp only [List.map_cons]
    rw [if_neg (h a (List.mem_cons_self _ _)),
      ih fun x hx => h x (List.mem_cons_of_mem _ hx)]

theorem freeAt_ownedSum {l : List MemoryBlock} {b : MemoryBlock}
    (hn : (l.map MemoryBlock.ident).Nodup) (hb : b ∈ l) (hbp : b.pid ≠ "FREE") :
    ownedSum (l.map fun (x : MemoryBlock) =>
      if x.ident = b.ident then { x with pid := "FREE" } else x)
      = ownedSum l - b.size := by
  induction l with
  | nil => simp at hb
  | cons a t ih =>
    simp only [List.map_cons, List.nodup_cons] at hn
    rcases List.mem_cons.mp hb with hba | hbt
    · subst hba
      have hnt : ∀ x ∈ t, x.ident ≠ b.ident := by
        intro x hx he
        exact hn.1 (he ▸ List.mem_map.mpr ⟨x, hx, rfl⟩)
      simp only [List.map_cons, if_pos rfl, map_freeIf_id hnt]
      rw [ownedSum_cons_free rfl, ownedSum_cons_owned hbp]
      ring
    · have hna : a.ident ≠ b.ident := by
        intro he
        exact hn.1 (List.mem_map.mpr ⟨b, hbt, he.symm⟩)
      simp only [List.map_cons, if_neg hna]
      by_cases hap : a.pid = "FREE"
      · rw [ownedSum_cons_free hap, ownedSum_cons_free hap, ih hn.2 hbt]
      · rw [ownedSum_cons_owned hap, ownedSum_cons_owned hap, ih hn.2 hbt]
        ring

theorem freeAt_map_ident (l : List MemoryBlock) (j : Nat) :
    ((l.map fun (x : MemoryBlock) =>
      if x.ident = j then { x with pid := "FREE" } else x).map
        MemoryBlock.ident) = l.map MemoryBlock.ident := by
  rw [List.map_map]
  apply List.map_congr_left
  intro x _
  by_cases hx : x.ident = j
  · simp [Function.comp, hx]
  · simp [Function.comp, hx]

theorem freeAt_mem_of_ne {l : List MemoryBlock} {x : MemoryBlock} {j : Nat}
    (hx : x ∈ l) (hne : x.ident ≠ j) :
    x ∈ l.map fun (y : MemoryBlock) =>
      if y.ident = j then { y with pid := "FREE" } else y :=
  List.mem_map.mpr ⟨x, hx, by rw [if_neg hne]⟩

/-- `deallocate` preserves the manager invariant. -/
theorem deallocate_inv (m : MemoryManager) (pid : String)
    (hinv : ManagerInv m) : ManagerInv (deallocate m pid).1 := by
  obtain ⟨hA, hB, hC, hD, hF, hE⟩ := hinv
  cases hlu : lookupAssoc m.allocated_processes pid with
  | none =>
    simp only [deallocate, hlu]
    exact ⟨hA, hB, hC, hD, hF, hE⟩
  | some bid =>
    cases hfi : findIdent m.memory_map bid with
    | none =>
      simp only [deallocate, hlu, hfi]
      exact ⟨hA, hB, hC, hD, hF, hE⟩
    | some b =>
      have hmem : (pid, bid) ∈ m.allocated_processes := lookupAssoc_mem hlu
      obtain ⟨hkne, b', hb'mem, hb'id, hb'pid⟩ := hB (pid, bid) hmem
      have hbb : b' = b := by
        have h1 := findIdent_unique hC hb'mem
        rw [hb'id, hfi] at h1
        injection h1 with h1
        exact h1.symm
      have hbmem : b ∈ m.memory_map := hbb ▸ hb'mem
      have hbpid : b.pid = pid := hbb ▸ hb'pid
      have hbown : b.pid ≠ "FREE" := by rw [hbpid]; exact hkne
      have hbident : b.ident = bid := (findIdent_mem hfi).2
      have hfree_sum := freeAt_ownedSum hC hbmem hbown
      have hfid := freeAt_map_ident m.memory_map b.ident
      rw [hbident] at hfree_sum hfid
      simp only [deallocate, hlu, hfi]
      refine ⟨?_, ?_, ?_, ?_, ?_, ?_⟩
      · show m.available_memory + b.size = m.total_memory - ownedSum
          (mergeFreeBlocks (m.memory_map.map fun x =>
            if x.ident = bid then { x with pid := "FREE" } else x))
        rw [merge_ownedSum, hfree_sum, hA]
        ring
      · intro kb hkb
        obtain ⟨hkb1, hkb2⟩ := mem_eraseAssoc hF hkb
        obtain ⟨hk2, b2, hb2mem, hb2id, hb2pid⟩ := hB kb hkb1
        have hb2ne : b2.ident ≠ bid := by
          intro he
          have hbe : b2 = b := ident_inj hC hb2mem hbmem (he.trans hbident.symm)
          rw [hbe] at hb2pid
          exact hkb2 (hbpid ▸ hb2pid ▸ rfl)
        refine ⟨hk2, b2, ?_, hb2id, hb2pid⟩
        apply mem_merge_of_owned
        · exact freeAt_mem_of_ne hb2mem hb2ne
        · rw [hb2pid]; exact hk2
      · exact ((merge_idents_sublist _).nodup (hfid ▸ hC))
      · intro x hx
        have hxi : x.ident ∈ (mergeFreeBlocks (m.memory_map.map fun y =>
            if y.ident = bid then { y with pid := "FREE" } else y)).map
              MemoryBlock.ident := List.mem_map.mpr ⟨x, hx, rfl⟩
        have hxi2 : x.ident ∈ m.memory_map.map MemoryBlock.ident :=
          hfid ▸ (merge_idents_sublist _).subset hxi
        obtain ⟨y, hy, hyx⟩ := List.mem_map.mp hxi2
        exact hyx ▸ hD y hy
      · exact ((eraseAssoc_sublist _ _).map Prod.fst).nodup hF
      · intro s hs
        simp only [updateFrag, List.mem_append, List.mem_singleton] at hs
        rcases hs with hs | hs
        · exact hE s hs
        · subst hs
          exact internalFrag_eq_zero _
            (((eraseAssoc_sublist _ _).map Prod.fst).nodup hF)

/-- `_split_buddy_block` on a FREE block: the invariant is preserved, the
block at the split index is still FREE, and every other manager field is
untouched. -/
theorem splitBuddyBlock_facts {m : MemoryManager} {index : Nat}
    {target : Int} {b : MemoryBlock} (hget : m.memory_map[index]? = some b)
    (hfree : b.pid = "FREE") (hinv : ManagerInv m) :
    ManagerInv (splitBuddyBlock m index target) ∧
    (∃ b1, (splitBuddyBlock m index target).memory_map[index]? = some b1 ∧
      b1.pid = "FREE") ∧
    (splitBuddyBlock m index target).available_memory = m.available_memory ∧
    (splitBuddyBlock m index target).allocated_processes
      = m.allocated_processes ∧
    (splitBuddyBlock m index target).total_memory = m.total_memory := by
  obtain ⟨hA, hB, hC, hD, hF, hE⟩ := hinv
  have hbn : b.ident < m.next_ident := hD b (mem_of_getElem?_some hget)
  obtain ⟨hs1, ⟨b1, t1, hr1, hsb, hpb, hib⟩, hall, hnodup⟩ :=
    buddyHalveAux_spec target b.size.toNat b m.next_ident hbn
  have hrfree : ∀ x ∈ (buddyHalveAux b target m.next_ident b.size.toNat).1,
      x.pid = "FREE" := by
    intro x hx
    rcases (hall x hx).1 with h | h
    · rw [h, hfree]
    · exact h
  have hids := replaceAt_idents_ok hget hC hD hnodup
    (fun x hx => (hall x hx).2) hs1
  constructor
  · simp only [splitBuddyBlock, hget]
    refine ⟨?_, ?_, hids.1, hids.2, hF, hE⟩
    · show m.available_memory = m.total_memory - ownedSum (replaceAt
        m.memory_map index
        (buddyHalveAux b target m.next_ident b.size.toNat).1)
      rw [ownedSum_replaceAt_free hget hfree,
        ownedSum_eq_zero_of_free hrfree, hA]
      ring
    · intro kb hkb
      obtain ⟨hk, b2, hb2mem, hb2id, hb2pid⟩ := hB kb hkb
      have hne : b2 ≠ b := fun he => hk (by rw [← hb2pid, he, hfree])
      exact ⟨hk, b2, mem_replaceAt_of_mem_ne hget hb2mem hne, hb2id, hb2pid⟩
  constructor
  · simp only [splitBuddyBlock, hget]
    exact ⟨b1, getElem?_replaceAt_self hget hr1, by rw [hpb, hfree]⟩
  · simp only [splitBuddyBlock, hget]
    exact ⟨trivial, trivial, trivial⟩

theorem manager_inv_cursor {m : MemoryManager} {c : Nat}
    (hinv : ManagerInv m) : ManagerInv { m with next_fit_start := c } := by
  obtain ⟨hA, hB, hC, hD, hF, hE⟩ := hinv
  exact ⟨hA, hB, hC, hD, hF, hE⟩

/-- Every allocation strategy preserves the manager invariant. -/
theorem allocRun_inv (s : Strategy) (m : MemoryManager) (p : Process)
    (hpid : p.pid ≠ "FREE") (hinv : ManagerInv m) :
    ManagerInv (allocRun s m p).1 := by
  cases s with
  | firstFit =>
    simp only [allocRun, firstFit]
    cases hf : findFirstFit p.size m.memory_map with
    | none => exact hinv
    | some i =>
      obtain ⟨b, hget, hfree, _⟩ := findFirstFit_some hf
      exact allocateBlock_inv hget hfree hpid hinv
  | bestFit =>
    simp only [allocRun, bestFit]
    cases hf : bestFitAux p.size m.memory_map 0 none with
    | none => exact hinv
    | some pr =>
      obtain ⟨i, w⟩ := pr
      rcases bestFitAux_some m.memory_map 0 none hf with h | h
      · exact Option.noConfusion h
      · obtain ⟨k, b, hget, hik, hfree, _⟩ := h
        have hk : k = i := by omega
        subst hk
        exact allocateBlock_inv hget hfree hpid hinv
  | worstFit =>
    simp only [allocRun, worstFit]
    cases hf : worstFitAux p.size m.memory_map 0 none with
    | none => exact hinv
    | some pr =>
      obtain ⟨i, w⟩ := pr
      rcases worstFitAux_some m.memory_map 0 none hf with h | h
      · exact Option.noConfusion h
      · obtain ⟨k, b, hget, hik, hfree, _⟩ := h
        have hk : k = i := by omega
        subst hk
        exact allocateBlock_inv hget hfree hpid hinv
  | nextFit =>
    simp only [allocRun, nextFit]
    cases hf : nextFitFind m.memory_map p.size m.next_fit_start with
    | none => exact hinv
    | some idx =>
      obtain ⟨k, _, _, _, ⟨b, hget, hfree, _⟩, _⟩ :=
        nextFitAux_some 0 m.memory_map.length hf
      exact allocateBlock_inv
        (show ({ m with next_fit_start :=
          (idx + 1) % m.memory_map.length }).memory_map[idx]? = some b
          from hget) hfree hpid (manager_inv_cursor hinv)
  | buddySystem =>
    simp only [allocRun, buddySystem]
    cases hf : findFirstFit (nextPowerOfTwo p.size) m.memory_map with
    | none => exact hinv
    | some i =>
      obtain ⟨b, hget, hfree, _⟩ := findFirstFit_some hf
      simp only [hget]
      by_cases heq : b.size = nextPowerOfTwo p.size
      · rw [if_pos heq]
        exact allocateBlock_inv hget hfree hpid hinv
      · rw [if_neg heq]
        obtain ⟨hinv2, ⟨b1, hget1, hfree1⟩, _, _, _⟩ :=
          splitBuddyBlock_facts hget hfree hinv
        exact allocateBlock_inv hget1 hfree1 hpid hinv2

/-- The invariant holds at construction. -/
theorem initManager_inv (total : Int) : ManagerInv (initManager total) := by
  refine ⟨?_, ?_, ?_, ?_, ?_, ?_⟩
  · show total = total - ownedSum [⟨0, total, "FREE", 0⟩]
    rw [ownedSum_cons_free rfl, ownedSum_nil]
    ring
  · intro kb hkb
    simp [initManager, updateFrag] at hkb
  · show ([⟨0, total, "FREE", 0⟩].map MemoryBlock.ident).Nodup
    simp
  · intro b hb
    show b.ident < 1
    simp only [initManager, updateFrag, List.mem_singleton] at hb
    rw [hb]
    exact Nat.zero_lt_one
  · show (([] : List (String × Nat)).map Prod.fst).Nodup
    simp
  · intro s hs
    simp only [initManager, updateFrag, List.nil_append,
      List.mem_singleton] at hs
    rw [hs]
    exact internalFrag_eq_zero _ (by simp)

/-- Every reachable state satisfies the manager invariant. -/
theorem reachable_inv {m : MemoryManager} (h : Reachable m) : ManagerInv m := by
  induction h with
  | init total ht => exact initManager_inv total
  | alloc m s p hm hsz hpid ih => exact allocRun_inv s m p hpid ih
  | free m pid hm ih => exact deallocate_inv m pid ih

/-- C2: after any sequence of allocate calls (any of the five strategies,
request sizes > 0) and release calls from a fresh manager, the manager's
`available_memory` equals `total_memory` minus the sum of the sizes of all
non-FREE (owned) segments of the ledger. -/
theorem claim_c2_conservation {m : MemoryManager} (hm : Reachable m) :
    m.available_memory = m.total_memory - ownedSum m.memory_map :=
  (reachable_inv hm).1

/-- Witness for C2 at the concrete state reached by a first-fit
allocation of a 100-unit request on a fresh 1024-unit manager. -/
theorem claim_c2_witness :
    (allocRun Strategy.firstFit (initManager 1024) ⟨"P1", 100⟩).1.available_memory
      = (allocRun Strategy.firstFit (initManager 1024) ⟨"P1", 100⟩).1.total_memory
        - ownedSum (allocRun Strategy.firstFit (initManager 1024)
            ⟨"P1", 100⟩).1.memory_map :=
  claim_c2_conservation
    (Reachable.alloc (initManager 1024) Strategy.firstFit ⟨"P1", 100⟩
      (Reachable.init 1024 (by decide)) (by decide) (by decide))

/-- C10: for every successful allocation by any of the five strategies
from a reachable state, the segment committed to the request — the block
the allocation index references for the request's pid — has size exactly
`p.size` and starts at the returned address, and `available_memory`
decreases by exactly `p.size`. -/
theorem claim_c10_exact_commit {s : Strategy} {m m' : MemoryManager}
    {p : Process} {a : Int} (hm : Reachable m)
    (hrun : allocRun s m p = (m', true, a)) :
    (∃ bid c, lookupAssoc m'.allocated_processes p.pid = some bid ∧
      findIdent m'.memory_map bid = some c ∧ c.size = p.size ∧ c.start = a) ∧
    m'.available_memory = m.available_memory - p.size := by
  have hinv := reachable_inv hm
  have hnodup := hinv.2.2.1
  cases s with
  | firstFit =>
    simp only [allocRun, firstFit] at hrun
    cases hf : findFirstFit p.size m.memory_map with
    | none => rw [hf] at hrun; simp at hrun
    | some i =>
      simp only [hf] at hrun
      obtain ⟨b, hget, hfree, _⟩ := findFirstFit_some hf
      obtain ⟨hs1, hs2, hs3, ⟨c, hc1, hc2, hc3, hc4⟩, hs5⟩ :=
        allocateBlock_success (p := p) hget hnodup
      rw [hrun] at hs2 hs3 hc1 hs5
      exact ⟨⟨b.ident, c, hs3, hc1, hc2, hc4.trans hs2.symm⟩, hs5⟩
  | bestFit =>
    simp only [allocRun, bestFit] at hrun
    cases hf : bestFitAux p.size m.memory_map 0 none with
    | none => rw [hf] at hrun; simp at hrun
    | some pr =>
      simp only [hf] at hrun
      obtain ⟨i, w⟩ := pr
      rcases bestFitAux_some m.memory_map 0 none hf with h | h
      · exact Option.noConfusion h
      · obtain ⟨k, b, hget, hik, hfree, _⟩ := h
        have hk : k = i := by omega
        subst hk
        obtain ⟨hs1, hs2, hs3, ⟨c, hc1, hc2, hc3, hc4⟩, hs5⟩ :=
          allocateBlock_success (p := p) hget hnodup
        rw [hrun] at hs2 hs3 hc1 hs5
        exact ⟨⟨b.ident, c, hs3, hc1, hc2, hc4.trans hs2.symm⟩, hs5⟩
  | worstFit =>
    simp only [allocRun, worstFit] at hrun
    cases hf : worstFitAux p.size m.memory_map 0 none with
    | none => rw [hf] at hrun; simp at hrun
    | some pr =>
      simp only [hf] at hrun
      obtain ⟨i, w⟩ := pr
      rcases worstFitAux_some m.memory_map 0 none hf with h | h
      · exact Option.noConfusion h
      · obtain ⟨k, b, hget, hik, hfree, _⟩ := h
        have hk : k = i := by omega
        subst hk
        obtain ⟨hs1, hs2, hs3, ⟨c, hc1, hc2, hc3, hc4⟩, hs5⟩ :=
          allocateBlock_success (p := p) hget hnodup
        rw [hrun] at hs2 hs3 hc1 hs5
        exact ⟨⟨b.ident, c, hs3, hc1, hc2, hc4.trans hs2.symm⟩, hs5⟩
  | nextFit =>
    simp only [allocRun, nextFit] at hrun
    cases hf : nextFitFind m.memory_map p.size m.next_fit_start with
    | none => rw [hf] at hrun; simp at hrun
    | some idx =>
      simp only [hf] at hrun
      obtain ⟨k, _, _, _, ⟨b, hget, hfree, _⟩, _⟩ :=
        nextFitAux_some 0 m.memory_map.length hf
      obtain ⟨hs1, hs2, hs3, ⟨c, hc1, hc2, hc3, hc4⟩, hs5⟩ :=
        allocateBlock_success (p := p)
          (show ({ m with next_fit_start :=
            (idx + 1) % m.memory_map.length }).memory_map[idx]? = some b
            from hget)
          (show (({ m with next_fit_start :=
            (idx + 1) % m.memory_map.length }).memory_map.map
              MemoryBlock.ident).Nodup from hnodup)
      rw [hrun] at hs2 hs3 hc1 hs5
      exact ⟨⟨b.ident, c, hs3, hc1, hc2, hc4.trans hs2.symm⟩, hs5⟩
  | buddySystem =>
    simp only [allocRun, buddySystem] at hrun
    cases hf : findFirstFit (nextPowerOfTwo p.size) m.memory_map with
    | none => rw [hf] at hrun; simp at hrun
    | some i =>
      obtain ⟨b, hget, hfree, _⟩ := findFirstFit_some hf
      simp only [hf, hget] at hrun
      by_cases heq : b.size = nextPowerOfTwo p.size
      · rw [if_pos heq] at hrun
        obtain ⟨hs1, hs2, hs3, ⟨c, hc1, hc2, hc3, hc4⟩, hs5⟩ :=
          allocateBlock_success (p := p) hget hnodup
        rw [hrun] at hs2 hs3 hc1 hs5
        exact ⟨⟨b.ident, c, hs3, hc1, hc2, hc4.trans hs2.symm⟩, hs5⟩
      · rw [if_neg heq] at hrun
        obtain ⟨hinv2, ⟨b1, hget1, hfree1⟩, havail, hdict, htot⟩ :=
          splitBuddyBlock_facts hget hfree hinv
        obtain ⟨hs1, hs2, hs3, ⟨c, hc1, hc2, hc3, hc4⟩, hs5⟩ :=
          allocateBlock_success (p := p) hget1 hinv2.2.2.1
        rw [hrun] at hs2 hs3 hc1 hs5
        rw [havail] at hs5
        exact ⟨⟨b1.ident, c, hs3, hc1, hc2, hc4.trans hs2.symm⟩, hs5⟩

/-- Witness for C10: the first-fit allocation of a 100-unit request on a
fresh 1024-unit manager commits a segment of size exactly 100 at address
0 and decreases `available_memory` by 100. -/
theorem claim_c10_witness :
    (∃ bid c, lookupAssoc (allocRun Strategy.firstFit (initManager 1024)
        ⟨"P1", 100⟩).1.allocated_processes "P1" = some bid ∧
      findIdent (allocRun Strategy.firstFit (initManager 1024)
        ⟨"P1", 100⟩).1.memory_map bid = some c ∧
      c.size = 100 ∧ c.start = 0) ∧
    (allocRun Strategy.firstFit (initManager 1024) ⟨"P1", 100⟩).1.available_memory
      = (initManager 1024).available_memory - 100 :=
  claim_c10_exact_commit (Reachable.init 1024 (by decide))
    (show allocRun Strategy.firstFit (initManager 1024) ⟨"P1", 100⟩
      = ((allocRun Strategy.firstFit (initManager 1024) ⟨"P1", 100⟩).1, true, 0)
      from rfl)

theorem allocateBlock_isSuccess {m : MemoryManager} {index : Nat}
    {p : Process} {b : MemoryBlock} (hget : m.memory_map[index]? = some b) :
    (allocateBlock m index p).2.1 = true := by
  simp only [allocateBlock, hget]
  by_cases hsz : b.size = p.size
  · rw [if_pos hsz]
  · rw [if_neg hsz]

theorem allocateBlock_cursor (m : MemoryManager) (index : Nat) (p : Process) :
    (allocateBlock m index p).1.next_fit_start = m.next_fit_start := by
  cases hget : m.memory_map[index]? with
  | none => simp only [allocateBlock, hget]
  | some b =>
    simp only [allocateBlock, hget]
    by_cases hsz : b.size = p.size
    · rw [if_pos hsz]
      rfl
    · rw [if_neg hsz]
      rfl

theorem deallocate_cursor (m : MemoryManager) (pid : String) :
    (deallocate m pid).1.next_fit_start = m.next_fit_start := by
  cases hlu : lookupAssoc m.allocated_processes pid with
  | none => simp only [deallocate, hlu]
  | some bid =>
    cases hfi : findIdent m.memory_map bid with
    | none => simp only [deallocate, hlu, hfi]
    | some b => simp only [deallocate, hlu, hfi, updateFrag]

/-- C8 counterexample: on a fresh 1024-unit manager, `next_fit` for a
100-unit request selects index 0 and succeeds; the allocation splits the
block so the ledger afterwards has 2 segments, and the cursor is left at
`(0 + 1) % 1 = 0` — not `(0 + 1) % 2 = 1` as the claim's
"ledger length after the allocation" formula demands. -/
theorem claim_c8_counterexample :
    nextFitFind (initManager 1024).memory_map 100 0 = some 0 ∧
    (nextFit (initManager 1024) ⟨"P1", 100⟩).2.1 = true ∧
    (nextFit (initManager 1024) ⟨"P1", 100⟩).1.memory_map.length = 2 ∧
    (nextFit (initManager 1024) ⟨"P1", 100⟩).1.next_fit_start = 0 ∧
    (0 + 1) % (nextFit (initManager 1024) ⟨"P1", 100⟩).1.memory_map.length
      = 1 :=
  ⟨rfl, rfl, rfl, rfl, rfl⟩

/-- C8 (amended): `next_fit` scans the ledger circularly starting at the
persistent cursor, visiting each segment exactly once, and selects the
first FREE segment with sufficient size; after a successful allocation
the cursor equals `(selected_index + 1) mod n` where `n` is the ledger
length at selection time (the length *before* any split); the cursor is
not modified by deallocation or by a failed allocation. -/
theorem claim_c8_next_fit_amended (m : MemoryManager) (p : Process)
    (idx : Nat)
    (h : nextFitFind m.memory_map p.size m.next_fit_start = some idx) :
    (∃ i, i < m.memory_map.length ∧
      idx = (m.next_fit_start + i) % m.memory_map.length ∧
      eligibleAt m.memory_map p.size idx ∧
      ∀ j, j < i → ¬eligibleAt m.memory_map p.size
        ((m.next_fit_start + j) % m.memory_map.length)) ∧
    (nextFit m p).2.1 = true ∧
    (nextFit m p).1.next_fit_start = (idx + 1) % m.memory_map.length ∧
    (∀ pid, (deallocate m pid).1.next_fit_start = m.next_fit_start) ∧
    (∀ q : Process, nextFitFind m.memory_map q.size m.next_fit_start = none →
      nextFit m q = (m, false, -1)) := by
  obtain ⟨k, hk0, hklen, hkidx, helig, hmin⟩ :=
    nextFitAux_some 0 m.memory_map.length h
  obtain ⟨b, hget, hbf, hbs⟩ := helig
  refine ⟨⟨k, by omega, hkidx, ⟨b, hget, hbf, hbs⟩,
    fun j hj => hmin j (Nat.zero_le _) hj⟩, ?_, ?_, ?_, ?_⟩
  · simp only [nextFit, h]
    exact allocateBlock_isSuccess
      (show ({ m with next_fit_start :=
        (idx + 1) % m.memory_map.length }).memory_map[idx]? = some b
        from hget)
  · simp only [nextFit, h]
    exact allocateBlock_cursor _ idx p
  · intro pid
    exact deallocate_cursor m pid
  · intro q hq
    simp only [nextFit, hq]

/-- Witness for the amended C8 at a concrete input: fresh 1024-unit
manager, request of size 100, selected index 0. -/
theorem claim_c8_witness :
    (∃ i, i < (initManager 1024).memory_map.length ∧
      0 = ((initManager 1024).next_fit_start + i)
        % (initManager 1024).memory_map.length ∧
      eligibleAt (initManager 1024).memory_map
        (Process.mk "P1" 100).size 0 ∧
      ∀ j, j < i → ¬eligibleAt (initManager 1024).memory_map
        (Process.mk "P1" 100).size
        (((initManager 1024).next_fit_start + j)
          % (initManager 1024).memory_map.length)) ∧
    (nextFit (initManager 1024) (Process.mk "P1" 100)).2.1 = true ∧
    (nextFit (initManager 1024) (Process.mk "P1" 100)).1.next_fit_start
      = (0 + 1) % (initManager 1024).memory_map.length ∧
    (∀ pid, (deallocate (initManager 1024) pid).1.next_fit_start
      = (initManager 1024).next_fit_start) ∧
    (∀ q : Process, nextFitFind (initManager 1024).memory_map q.size
        (initManager 1024).next_fit_start = none →
      nextFit (initManager 1024) q = (initManager 1024, false, -1)) :=
  claim_c8_next_fit_amended (initManager 1024) (Process.mk "P1" 100) 0 rfl

theorem allocateBlock_mem {m : MemoryManager} {index : Nat} {p : Process}
    {b : MemoryBlock} (hget : m.memory_map[index]? = some b) :
    ∀ x ∈ (allocateBlock m index p).1.memory_map,
      x ∈ m.memory_map ∨ (x.pid = p.pid ∧ x.size = p.size) ∨
        x.pid = "FREE" := by
  simp only [allocateBlock, hget]
  by_cases hsz : b.size = p.size
  · rw [if_pos hsz]
    intro x hx
    rcases mem_of_mem_replaceAt hget hx with h | h
    · rw [List.mem_singleton] at h
      subst h
      exact Or.inr (Or.inl ⟨rfl, hsz⟩)
    · exact Or.inl h
  · rw [if_neg hsz]
    intro x hx
    rcases mem_of_mem_replaceAt hget hx with h | h
    · simp only [List.mem_cons, List.not_mem_nil, or_false] at h
      rcases h with h | h
      · subst h
        exact Or.inr (Or.inl ⟨rfl, rfl⟩)
      · subst h
        exact Or.inr (Or.inr rfl)
    · exact Or.inl h

theorem buddyHalveAux_pids (target : Int) :
    ∀ (fuel : Nat) (b : MemoryBlock) (next : Nat),
      ∀ x ∈ (buddyHalveAux b target next fuel).1,
        x.pid = b.pid ∨ x.pid = "FREE" := by
  intro fuel
  induction fuel with
  | zero =>
    intro b next x hx
    rw [buddyHalveAux, List.mem_singleton] at hx
    subst hx
    exact Or.inl rfl
  | succ fuel ih =>
    intro b next x hx
    by_cases hlt : target < b.size
    · rw [buddyHalveAux, if_pos hlt] at hx
      simp only [List.mem_append, List.mem_singleton] at hx
      rcases hx with hx | hx
      · exact ih { b with size := Int.fdiv b.size 2 } (next + 1) x hx
      · subst hx
        exact Or.inr rfl
    · rw [buddyHalveAux, if_neg hlt, List.mem_singleton] at hx
      subst hx
      exact Or.inl rfl

theorem splitBuddyBlock_mem {m : MemoryManager} {index : Nat} {target : Int}
    {b : MemoryBlock} (hget : m.memory_map[index]? = some b)
    (hfree : b.pid = "FREE") :
    ∀ x ∈ (splitBuddyBlock m index target).memory_map,
      x ∈ m.memory_map ∨ x.pid = "FREE" := by
  simp only [splitBuddyBlock, hget]
  intro x hx
  rcases mem_of_mem_replaceAt hget hx with h | h
  · rcases buddyHalveAux_pids target b.size.toNat b m.next_ident x h with
      hp | hp
    · exact Or.inr (hp.trans hfree)
    · exact Or.inr hp
  · exact Or.inl h

theorem deallocate_mem {m : MemoryManager} {pid : String} :
    ∀ x ∈ (deallocate m pid).1.memory_map, x.pid ≠ "FREE" →
      x ∈ m.memory_map := by
  cases hlu : lookupAssoc m.allocated_processes pid with
  | none =>
    simp only [deallocate, hlu]
    exact fun x hx _ => hx
  | some bid =>
    cases hfi : findIdent m.memory_map bid with
    | none =>
      simp only [deallocate, hlu, hfi]
      exact fun x hx _ => hx
    | some b =>
      simp only [deallocate, hlu, hfi]
      intro x hx hown
      have hx2 : x ∈ m.memory_map.map fun (y : MemoryBlock) =>
          if y.ident = bid then { y with pid := "FREE" } else y :=
        owned_of_mem_merge hx hown
      obtain ⟨y, hy, hxy⟩ := List.mem_map.mp hx2
      by_cases hyb : y.ident = bid
      · rw [if_pos hyb] at hxy
        rw [← hxy] at hown
        exact absurd rfl hown
      · rw [if_neg hyb] at hxy
        exact hxy ▸ hy

/-- The logical-size invariant tying the ledger to the log of issued
requests: every owned segment's size is exactly the size its owning
request asked for. -/
def LogOK (m : MemoryManager) (log : List (String × Int)) : Prop :=
  ∀ b ∈ m.memory_map, b.pid ≠ "FREE" → lookupAssoc log b.pid = some b.size

theorem reachableLog_reachable {m : MemoryManager}
    {log : List (String × Int)} (h : ReachableLog m log) : Reachable m := by
  induction h with
  | init total ht => exact Reachable.init total ht
  | alloc m log s p hm hsz hpid hfresh ih =>
    exact Reachable.alloc m s p ih hsz hpid
  | free m log pid hm ih => exact Reachable.free m pid ih

theorem logOK_alloc (s : Strategy) (m : MemoryManager) (p : Process)
    (log : List (String × Int)) (hfresh : p.pid ∉ log.map Prod.fst)
    (hOK : LogOK m log) :
    LogOK (allocRun s m p).1
      (if (allocRun s m p).2.1 then log ++ [(p.pid, p.size)] else log) := by
  have hcommitted : ∀ {m0 : MemoryManager} {idx : Nat} {b : MemoryBlock},
      m0.memory_map[idx]? = some b →
      (∀ x ∈ m0.memory_map, x ∈ m.memory_map ∨ x.pid = "FREE") →
      ∀ x ∈ (allocateBlock m0 idx p).1.memory_map, x.pid ≠ "FREE" →
        lookupAssoc (log ++ [(p.pid, p.size)]) x.pid = some x.size := by
    intro m0 idx b hget hsub x hx hown
    rcases allocateBlock_mem hget x hx with h | h | h
    · rcases hsub x h with h2 | h2
      · exact lookupAssoc_append_left (hOK x h2 hown)
      · exact absurd h2 hown
    · rw [h.1, h.2]
      exact lookupAssoc_append_fresh p.size hfresh
    · exact absurd h hown
  cases s with
  | firstFit =>
    cases hf : findFirstFit p.size m.memory_map with
    | none =>
      simp only [allocRun, firstFit, hf]
      exact hOK
    | some i =>
      obtain ⟨b, hget, hfree, _⟩ := findFirstFit_some hf
      simp only [allocRun, firstFit, hf]
      rw [allocateBlock_isSuccess hget, if_pos rfl]
      exact hcommitted hget (fun x hx => Or.inl hx)
  | bestFit =>
    cases hf : bestFitAux p.size m.memory_map 0 none with
    | none =>
      simp only [allocRun, bestFit, hf]
      exact hOK
    | some pr =>
      obtain ⟨i, w⟩ := pr
      rcases bestFitAux_some m.memory_map 0 none hf with h | h
      · exact Option.noConfusion h
      · obtain ⟨k, b, hget, hik, hfree, _⟩ := h
        have hk : k = i := by omega
        subst hk
        simp only [allocRun, bestFit, hf]
        rw [allocateBlock_isSuccess hget, if_pos rfl]
        exact hcommitted hget (fun x hx => Or.inl hx)
  | worstFit =>
    cases hf : worstFitAux p.size m.memory_map 0 none with
    | none =>
      simp only [allocRun, worstFit, hf]
      exact hOK
    | some pr =>
      obtain ⟨i, w⟩ := pr
      rcases worstFitAux_some m.memory_map 0 none hf with h | h
      · exact Option.noConfusion h
      · obtain ⟨k, b, hget, hik, hfree, _⟩ := h
        have hk : k = i := by omega
        subst hk
        simp only [allocRun, worstFit, hf]
        rw [allocateBlock_isSuccess hget, if_pos rfl]
        exact hcommitted hget (fun x hx => Or.inl hx)
  | nextFit =>
    cases hf : nextFitFind m.memory_map p.size m.next_fit_start with
    | none =>
      simp only [allocRun, nextFit, hf]
      exact hOK
    | some idx =>
      obtain ⟨k, _, _, _, ⟨b, hget, hfree, _⟩, _⟩ :=
        nextFitAux_some 0 m.memory_map.length hf
      have hget1 : ({ m with next_fit_start :=
          (idx + 1) % m.memory_map.length }).memory_map[idx]? = some b := hget
      simp only [allocRun, nextFit, hf]
      rw [allocateBlock_isSuccess hget1, if_pos rfl]
      exact hcommitted hget1 (fun x hx => Or.inl hx)
  | buddySystem =>
    cases hf : findFirstFit (nextPowerOfTwo p.size) m.memory_map with
    | none =>
      simp only [allocRun, buddySystem, hf]
      exact hOK
    | some i =>
      obtain ⟨b, hget, hfree, _⟩ := findFirstFit_some hf
      simp only [allocRun, buddySystem, hf, hget]
      by_cases heq : b.size = nextPowerOfTwo p.size
      · rw [if_pos heq, allocateBlock_isSuccess hget, if_pos rfl]
        exact hcommitted hget (fun x hx => Or.inl hx)
      · rw [if_neg heq]
        have hsp := @splitBuddyBlock_mem m i (nextPowerOfTwo p.size) b hget
          hfree
        cases hget1 : (splitBuddyBlock m i
            (nextPowerOfTwo p.size)).memory_map[i]? with
        | none =>
          simp only [allocateBlock, hget1]
          intro x hx hown
          rcases hsp x hx with h2 | h2
          · exact hOK x h2 hown
          · exact absurd h2 hown
        | some b1 =>
          rw [allocateBlock_isSuccess hget1, if_pos rfl]
          exact hcommitted hget1 hsp

theorem logOK_free (m : MemoryManager) (pid : String)
    (log : List (String × Int)) (hOK : LogOK m log) :
    LogOK (deallocate m pid).1 log :=
  fun x hx hown => hOK x (deallocate_mem x hx hown) hown

theorem reachableLog_logOK {m : MemoryManager} {log : List (String × Int)}
    (h : ReachableLog m log) : LogOK m log := by
  induction h with
  | init total ht =>
    intro b hb hown
    simp only [initManager, updateFrag, List.mem_singleton] at hb
    rw [hb] at hown
    exact absurd rfl hown
  | alloc m log s p hm hsz hpid hfresh ih => exact logOK_alloc s m p log hfresh ih
  | free m log pid hm ih => exact logOK_free m pid log ih

/-- C9: every fragmentation snapshot's internal-fragmentation value
equals the spec's sum `Σ (segment.size - logical_request_size)` over
owned segments whose committed segment is strictly larger than the
logical size of the owning request (logical sizes read off the log of
issued requests).  Both sides are in fact 0: the code's helper
`_get_process_by_pid` reports each block's own size, and the commit
routine always commits exactly the requested size. -/
theorem claim_c9_internal_frag (m : MemoryManager)
    (log : List (String × Int)) (hm : ReachableLog m log) :
    ∀ s ∈ m.fragmentation_history,
      s.internal = specInternalFrag m.memory_map log := by
  intro s hs
  have hinv := reachable_inv (reachableLog_reachable hm)
  have h0 : s.internal = 0 := hinv.2.2.2.2.2 s hs
  have hOK := reachableLog_logOK hm
  rw [h0]
  symm
  unfold specInternalFrag
  apply List.sum_eq_zero
  intro x hx
  simp only [List.mem_map] at hx
  obtain ⟨b, hb, rfl⟩ := hx
  have hbmem : b ∈ m.memory_map := (List.mem_filter.mp hb).1
  have hbown : b.pid ≠ "FREE" := by
    simpa using (List.mem_filter.mp hb).2
  rw [hOK b hbmem hbown]
  simp

/-- Witness for C9: the single snapshot taken at construction of a fresh
1024-unit manager has internal fragmentation equal to the spec's sum
over the empty request log. -/
theorem claim_c9_witness :
    (computeSnapshot { total_memory := 1024, available_memory := 1024,
                       memory_map := [⟨0, 1024, "FREE", 0⟩],
                       allocated_processes := [],
                       fragmentation_history := [], allocation_count := 0,
                       next_fit_start := 0, next_ident := 1 }).internal
      = specInternalFrag (initManager 1024).memory_map [] :=
  claim_c9_internal_frag (initManager 1024) []
    (ReachableLog.init 1024 (by decide)) _
    (show _ ∈ (initManager 1024).fragmentation_history from
      List.mem_singleton.mpr rfl)

/-- Contiguity from a base address: each segment starts exactly where the
previous one ends. -/
def contiguousFrom : Int → List MemoryBlock → Prop
  | _, [] => True
  | a, b :: t => b.start = a ∧ contiguousFrom (b.start + b.size) t

theorem packFrom_pidsize (a : Int) (l : List MemoryBlock) :
    (packFrom a l).map (fun b => (b.pid, b.size))
      = l.map (fun b => (b.pid, b.size)) := by
  induction l generalizing a with
  | nil => rfl
  | cons b t ih => simp [packFrom, ih]

theorem packFrom_sumSizes (a : Int) (l : List MemoryBlock) :
    sumSizes (packFrom a l) = sumSizes l := by
  induction l generalizing a with
  | nil => rfl
  | cons b t ih =>
    show sumSizes ({ b with start := a } :: packFrom (a + b.size) t)
      = sumSizes (b :: t)
    simp only [sumSizes, List.map_cons, List.sum_cons] at ih ⊢
    rw [ih]

theorem packFrom_mem_pid {a : Int} {l : List MemoryBlock} {x : MemoryBlock}
    (hx : x ∈ packFrom a l) : ∃ y ∈ l, x.pid = y.pid := by
  induction l generalizing a with
  | nil => simp [packFrom] at hx
  | cons b t ih =>
    rw [packFrom, List.mem_cons] at hx
    rcases hx with hx | hx
    · exact ⟨b, List.mem_cons_self _ _, by rw [hx]⟩
    · obtain ⟨y, hy, hxy⟩ := ih hx
      exact ⟨y, List.mem_cons_of_mem _ hy, hxy⟩

theorem packFrom_contiguous (a : Int) (l : List MemoryBlock) :
    contiguousFrom a (packFrom a l) := by
  induction l generalizing a with
  | nil => trivial
  | cons b t ih => exact ⟨rfl, ih (a + b.size)⟩

theorem packFrom_packFrom (a c : Int) (l : List MemoryBlock) :
    packFrom a (packFrom c l) = packFrom a l := by
  induction l generalizing a c with
  | nil => rfl
  | cons b t ih =>
    show ({ b with start := a } : MemoryBlock) :: packFrom (a + b.size)
        (packFrom (c + b.size) t)
      = { b with start := a } :: packFrom (a + b.size) t
    rw [ih]

theorem contiguousFrom_concat {a : Int} {l : List MemoryBlock}
    {f : MemoryBlock} (hl : contiguousFrom a l)
    (hf : f.start = a + sumSizes l) : contiguousFrom a (l ++ [f]) := by
  induction l generalizing a with
  | nil =>
    refine ⟨?_, trivial⟩
    rw [hf]
    show a + sumSizes [] = a
    simp [sumSizes]
  | cons b t ih =>
    obtain ⟨hb, ht⟩ := hl
    refine ⟨hb, ih ht ?_⟩
    rw [hf, hb]
    simp only [sumSizes, List.map_cons, List.sum_cons]
    ring

/-- The owned part of a manager's ledger, in address order. -/
def ownedOf (m : MemoryManager) : List MemoryBlock :=
  m.memory_map.filter (fun b => b.pid ≠ "FREE")

/-- The single trailing FREE segment `compact_memory` produces. -/
def trailingOf (m : MemoryManager) : MemoryBlock :=
  ⟨((ownedOf m).map MemoryBlock.size).sum,
    m.total_memory - ((ownedOf m).map MemoryBlock.size).sum,
    "FREE", m.next_ident⟩

/-- C6 (spec-modelled): `compact_memory` relocates all owned segments, in
their original relative order and with their sizes, to the lowest
addresses with no gaps, followed by exactly one trailing FREE segment
holding all free space; and compacting twice yields a ledger with exactly
the same `(start, size, owner)` tuples as compacting once. -/
theorem claim_c6_compaction (m : MemoryManager) :
    ((compactMemory m).memory_map.filter (fun b => b.pid ≠ "FREE")).map
        (fun b => (b.pid, b.size))
      = (m.memory_map.filter (fun b => b.pid ≠ "FREE")).map
        (fun b => (b.pid, b.size)) ∧
    contiguousFrom 0 (compactMemory m).memory_map ∧
    (∃ f, (compactMemory m).memory_map.getLast? = some f ∧
      f.pid = "FREE" ∧ f.size = m.total_memory - ownedSum m.memory_map) ∧
    ((compactMemory m).memory_map.filter
      (fun b => b.pid = "FREE")).length = 1 ∧
    (compactMemory (compactMemory m)).memory_map.map blockTuple
      = (compactMemory m).memory_map.map blockTuple := by
  have hcm : (compactMemory m).memory_map
      = packFrom 0 (ownedOf m) ++ [trailingOf m] := rfl
  have howned : ∀ x ∈ packFrom 0 (ownedOf m), x.pid ≠ "FREE" := by
    intro x hx
    obtain ⟨y, hy, hxy⟩ := packFrom_mem_pid hx
    rw [hxy]
    simpa using (List.mem_filter.mp hy).2
  have hfilter : (packFrom 0 (ownedOf m) ++ [trailingOf m]).filter
      (fun b => b.pid ≠ "FREE") = packFrom 0 (ownedOf m) := by
    rw [List.filter_append,
      List.filter_eq_self.mpr (fun x hx => by simpa using howned x hx)]
    have htr : [trailingOf m].filter (fun b => b.pid ≠ "FREE") = [] := by
      simp [trailingOf]
    rw [htr, List.append_nil]
  refine ⟨?_, ?_, ?_, ?_, ?_⟩
  · rw [hcm, hfilter, packFrom_pidsize]
    rfl
  · rw [hcm]
    apply contiguousFrom_concat (packFrom_contiguous _ _)
    show ((ownedOf m).map MemoryBlock.size).sum
      = 0 + sumSizes (packFrom 0 (ownedOf m))
    rw [packFrom_sumSizes]
    show ((ownedOf m).map MemoryBlock.size).sum = 0 + sumSizes (ownedOf m)
    simp [sumSizes]
  · rw [hcm]
    exact ⟨trailingOf m, List.getLast?_concat _, rfl, rfl⟩
  · rw [hcm, List.filter_append,
      List.filter_eq_nil_iff.mpr (fun x hx => by simpa using howned x hx)]
    simp [trailingOf]
  · have hcm2 : (compactMemory (compactMemory m)).memory_map
        = packFrom 0 (ownedOf (compactMemory m)) ++
          [trailingOf (compactMemory m)] := rfl
    have ho2 : ownedOf (compactMemory m) = packFrom 0 (ownedOf m) := by
      show ((compactMemory m).memory_map).filter (fun b => b.pid ≠ "FREE") = _
      rw [hcm]
      exact hfilter
    have hsum : ((ownedOf (compactMemory m)).map MemoryBlock.size).sum
        = ((ownedOf m).map MemoryBlock.size).sum := by
      rw [ho2]
      have hps := packFrom_sumSizes 0 (ownedOf m)
      simpa [sumSizes] using hps
    rw [hcm2, hcm, ho2, packFrom_packFrom, List.map_append, List.map_append]
    congr 1
    simp only [List.map_singleton, blockTuple, trailingOf]
    rw [hsum]
    rfl

/-- C7 counterexample: a manager with one allocated process has an
allocation index of size 1, but importing its exported state yields an
allocation index of size 0 — the round trip does not reproduce the
allocation-index size. -/
theorem claim_c7_counterexample :
    (importLedger (exportLedger (firstFit (initManager 1024)
        ⟨"P1", 100⟩).1)).allocated_processes.length = 0 ∧
    (firstFit (initManager 1024) ⟨"P1", 100⟩).1.allocated_processes.length
      = 1 :=
  ⟨rfl, rfl⟩

/-- C7 (amended): importing a previously exported state document
reproduces the ledger exactly — the same segment count, with every
segment's `(start, size, owner)` tuple identical to the exported one —
but the allocation index is not restored: the imported manager's
`allocated_processes` is empty, so its size matches the exporting
manager's only when no process is allocated. -/
theorem claim_c7_round_trip (m : MemoryManager) :
    (importLedger (exportLedger m)).memory_map.map blockTuple
      = m.memory_map.map blockTuple ∧
    (importLedger (exportLedger m)).memory_map.length
      = m.memory_map.length ∧
    (importLedger (exportLedger m)).allocated_processes = [] := by
  have h1 : ∀ (doc : List (Int × Int × String)) (i : Nat),
      (blocksOfDoc doc i).map blockTuple = doc := by
    intro doc
    induction doc with
    | nil => intro i; rfl
    | cons d t ih =>
      intro i
      obtain ⟨s, z, p⟩ := d
      simp only [blocksOfDoc, List.map_cons, blockTuple, ih]
  have h2 : (importLedger (exportLedger m)).memory_map.map blockTuple
      = m.memory_map.map blockTuple := by
    show (blocksOfDoc (exportLedger m) 0).map blockTuple = _
    rw [h1]
    rfl
  refine ⟨h2, ?_, rfl⟩
  have h3 := congrArg List.length h2
  simpa using h3

/-- Witness for the amended C7 at the concrete manager holding one
100-unit allocation. -/
theorem claim_c7_witness :
    (importLedger (exportLedger (firstFit (initManager 1024)
        ⟨"P1", 100⟩).1)).memory_map.map blockTuple
      = (firstFit (initManager 1024) ⟨"P1", 100⟩).1.memory_map.map
          blockTuple ∧
    (importLedger (exportLedger (firstFit (initManager 1024)
        ⟨"P1", 100⟩).1)).memory_map.length
      = (firstFit (initManager 1024) ⟨"P1", 100⟩).1.memory_map.length ∧
    (importLedger (exportLedger (firstFit (initManager 1024)
        ⟨"P1", 100⟩).1)).allocated_processes = [] :=
  claim_c7_round_trip (firstFit (initManager 1024) ⟨"P1", 100⟩).1

/-- C1 (code bug): from a fresh 1024-unit manager, `first_fit` of a
1-unit request followed by `buddy_system` of a 300-unit request — both
sizes positive — reaches a state whose segment sizes sum to 1023, not
`total_memory = 1024`: `_split_buddy_block` halves the odd-sized 1023
free segment into two 511-unit halves, losing one unit. -/
theorem claim_c1_sum_violation :
    sumSizes (buddySystem ((firstFit (initManager 1024) ⟨"P1", 1⟩).1)
        ⟨"P2", 300⟩).1.memory_map = 1023 ∧
    (buddySystem ((firstFit (initManager 1024) ⟨"P1", 1⟩).1)
        ⟨"P2", 300⟩).1.total_memory = 1024 ∧
    Reachable (buddySystem ((firstFit (initManager 1024) ⟨"P1", 1⟩).1)
        ⟨"P2", 300⟩).1 :=
  ⟨by decide, rfl,
    Reachable.alloc _ Strategy.buddySystem ⟨"P2", 300⟩
      (Reachable.alloc _ Strategy.firstFit ⟨"P1", 1⟩
        (Reachable.init 1024 (by decide)) (by decide) (by decide))
      (by decide) (by decide)⟩

/-- C3 (code bug): on a fresh 1024-unit manager, the buddy-system
allocation of a 300-unit request commits a segment of size 300 (not 512),
and the following 100-unit buddy allocation commits a segment of size 100
(not 128): `_allocate_block` splits the power-of-two block down to the
exact request size. -/
theorem claim_c3_buddy_commit_sizes :
    ((lookupAssoc (buddySystem (buddySystem (initManager 1024)
        ⟨"P1", 300⟩).1 ⟨"P2", 100⟩).1.allocated_processes "P1").bind
      (findIdent (buddySystem (buddySystem (initManager 1024)
        ⟨"P1", 300⟩).1 ⟨"P2", 100⟩).1.memory_map)).map MemoryBlock.size
      = some 300 ∧
    ((lookupAssoc (buddySystem (buddySystem (initManager 1024)
        ⟨"P1", 300⟩).1 ⟨"P2", 100⟩).1.allocated_processes "P2").bind
      (findIdent (buddySystem (buddySystem (initManager 1024)
        ⟨"P1", 300⟩).1 ⟨"P2", 100⟩).1.memory_map)).map MemoryBlock.size
      = some 100 :=
  ⟨by decide, by decide⟩

/-- C4 (code bug): the segment committed by a buddy-system allocation of
a 300-unit request on a fresh 1024-unit manager has size 300, which is
not a power of two. -/
theorem claim_c4_buddy_not_power_of_two :
    ((lookupAssoc (buddySystem (initManager 1024)
        ⟨"P1", 300⟩).1.allocated_processes "P1").bind
      (findIdent (buddySystem (initManager 1024)
        ⟨"P1", 300⟩).1.memory_map)).map MemoryBlock.size = some 300 ∧
    ∀ k : Nat, (300 : Int) ≠ 2 ^ k := by
  refine ⟨by decide, ?_⟩
  intro k hk
  rcases Nat.lt_or_ge k 9 with h9 | h9
  · have hsmall : ∀ j < 9, (300 : Int) ≠ 2 ^ j := by decide
    exact hsmall k h9 hk
  · have h512 : (2 : Int) ^ 9 ≤ 2 ^ k :=
      pow_le_pow_right₀ (by norm_num) h9
    rw [← hk] at h512
    norm_num at h512

/-- C5 (code bug): `first_fit` of a zero-size request on a fresh
1024-unit manager succeeds and mutates the ledger: it returns
`(True, 0)`, grows the ledger from 1 segment to 2 (a zero-size owned
segment plus the untouched free space), and records an allocation-index
entry — the repository's own `test_edge_cases` asserts this call must
fail. -/
theorem claim_c5_zero_size_allocated :
    (firstFit (initManager 1024) ⟨"ZERO", 0⟩).2.1 = true ∧
    (firstFit (initManager 1024) ⟨"ZERO", 0⟩).2.2 = 0 ∧
    (firstFit (initManager 1024) ⟨"ZERO", 0⟩).1.memory_map.length = 2 ∧
    (firstFit (initManager 1024) ⟨"ZERO", 0⟩).1.allocated_processes
      = [("ZERO", 0)] ∧
    (initManager 1024).memory_map.length = 1 :=
  ⟨rfl, rfl, rfl, rfl, rfl⟩

/-- Witness for C6 at the concrete manager holding one 5-unit
allocation inside 16 units of memory. -/
theorem claim_c6_witness :
    ((compactMemory (firstFit (initManager 16) ⟨"P1", 5⟩).1).memory_map.filter
        (fun b => b.pid ≠ "FREE")).map (fun b => (b.pid, b.size))
      = ((firstFit (initManager 16) ⟨"P1", 5⟩).1.memory_map.filter
        (fun b => b.pid ≠ "FREE")).map (fun b => (b.pid, b.size)) ∧
    contiguousFrom 0
      (compactMemory (firstFit (initManager 16) ⟨"P1", 5⟩).1).memory_map ∧
    (∃ f, (compactMemory (firstFit (initManager 16)
        ⟨"P1", 5⟩).1).memory_map.getLast? = some f ∧
      f.pid = "FREE" ∧
      f.size = (firstFit (initManager 16) ⟨"P1", 5⟩).1.total_memory
        - ownedSum (firstFit (initManager 16) ⟨"P1", 5⟩).1.memory_map) ∧
    ((compactMemory (firstFit (initManager 16) ⟨"P1", 5⟩).1).memory_map.filter
      (fun b => b.pid = "FREE")).length = 1 ∧
    (compactMemory (compactMemory (firstFit (initManager 16)
        ⟨"P1", 5⟩).1)).memory_map.map blockTuple
      = (compactMemory (firstFit (initManager 16)
        ⟨"P1", 5⟩).1).memory_map.map blockTuple :=
  claim_c6_compaction (firstFit (initManager 16) ⟨"P1", 5⟩).1
